import Mathlib

/-!
# go-filesys: File and Path value objects

A shallow embedding of `file.go` and `path.go` together with the parts of the
Go standard library (`strings`, `path/filepath` on Unix, `os`) they call.

Go strings are modelled by their list of characters. The library functions used
here only ever compare against the ASCII characters `/` and `.`, whose UTF-8
encodings never occur inside a multi-byte sequence, so scanning characters and
scanning bytes agree on every valid UTF-8 string.
-/

set_option autoImplicit false

namespace GoFilesys

/-- A Go `string`. -/
abbrev GoString := List Char

/-! ## `strings` -/

/-- The Go function `strings.HasPrefix`. -/
def HasPrefix (s pre : GoString) : Bool :=
  decide (pre.length ≤ s.length) && (s.take pre.length == pre)

/-- The Go function `strings.HasSuffix`:
`len(s) >= len(suffix) && s[len(s)-len(suffix):] == suffix`. -/
def HasSuffix (s suffix : GoString) : Bool :=
  decide (suffix.length ≤ s.length) && (s.drop (s.length - suffix.length) == suffix)

/-- The Go function `strings.TrimSuffix`. -/
def TrimSuffix (s suffix : GoString) : GoString :=
  if HasSuffix s suffix then s.take (s.length - suffix.length) else s

/-- The Go function `strings.Join`. -/
def stringsJoin : List GoString → GoString → GoString
  | [], _ => []
  | [e], _ => e
  | e :: rest, sep => e ++ sep ++ stringsJoin rest sep

/-! ## `path/filepath` (Unix) -/

/-- The constant `filepath.Separator`. -/
def Separator : Char := '/'

/-- The Go function `os.IsPathSeparator`. -/
def IsPathSeparator (c : Char) : Bool := c == Separator

/-- The Go function `filepath.IsAbs`: `strings.HasPrefix(path, "/")`. -/
def IsAbs (path : GoString) : Bool := HasPrefix path ['/']

/-- Loop of `filepath.Ext`; the argument is `i + 1` for the loop index `i`. -/
def extLoop (path : GoString) : Nat → GoString
  | 0 => []
  | i + 1 =>
    match path.get? i with
    | none => []
    | some c =>
      if IsPathSeparator c then []
      else if c == '.' then path.drop i
      else extLoop path i

/-- The Go function `filepath.Ext`. -/
def Ext (path : GoString) : GoString := extLoop path path.length

/-- Loop of `filepath.Split`; the argument and the result are `i + 1` for the loop index `i`. -/
def splitLoop (path : GoString) : Nat → Nat
  | 0 => 0
  | i + 1 =>
    match path.get? i with
    | none => i + 1
    | some c => if IsPathSeparator c then i + 1 else splitLoop path i

/-- The Go function `filepath.Split`: `path[:i+1], path[i+1:]`. -/
def Split (path : GoString) : GoString × GoString :=
  let k := splitLoop path path.length
  (path.take k, path.drop k)

/-- Inner loop of the `..` case of `filepath.Clean`, after `out.w--`:
`for out.w > dotdot && !os.IsPathSeparator(out.index(out.w)) { out.w-- }`.
The argument and the result are the write index `out.w`. -/
def backtrack (out : GoString) (dotdot : Nat) : Nat → Nat
  | 0 => 0
  | w + 1 =>
    match out.get? (w + 1) with
    | none => w + 1
    | some c =>
      if decide (w + 1 > dotdot) && !IsPathSeparator c then backtrack out dotdot w else w + 1

/-- Test `r+k == n || os.IsPathSeparator(path[r+k])` on the unread input `path[r+k:]`. -/
def endOfElem : GoString → Bool
  | [] => true
  | c :: _ => IsPathSeparator c

/-- Main loop `for r < n` of `filepath.Clean`. `rest` is the unread input
`path[r:]`, `out` the first `out.w` bytes of the output buffer. Every iteration
consumes at least one byte, so `path` needs at most `len(path)` iterations. -/
def cleanLoop (rooted : Bool) : Nat → GoString → GoString → Nat → GoString
  | 0, _, out, _ => out
  | _ + 1, [], out, _ => out
  | fuel + 1, c :: t, out, dotdot =>
    if IsPathSeparator c then
      -- empty path element
      cleanLoop rooted fuel t out dotdot
    else if c == '.' && endOfElem t then
      -- . element
      cleanLoop rooted fuel t out dotdot
    else if c == '.' && (t.head? == some '.') && endOfElem t.tail then
      -- .. element: remove to last separator
      if out.length > dotdot then
        cleanLoop rooted fuel t.tail (out.take (backtrack out dotdot (out.length - 1))) dotdot
      else if !rooted then
        let out1 := (if out.length > 0 then out ++ [Separator] else out) ++ ['.', '.']
        cleanLoop rooted fuel t.tail out1 out1.length
      else
        cleanLoop rooted fuel t.tail out dotdot
    else
      -- real path element: add slash if needed, copy element
      let out1 :=
        if (rooted && out.length != 1) || (!rooted && out.length != 0) then out ++ [Separator]
        else out
      cleanLoop rooted fuel ((c :: t).dropWhile (fun x => !IsPathSeparator x))
        (out1 ++ (c :: t).takeWhile (fun x => !IsPathSeparator x)) dotdot

/-- The Go function `filepath.Clean` (no volume names, `FromSlash` is the identity). -/
def Clean (path : GoString) : GoString :=
  match path with
  | [] => ['.']
  | c :: t =>
    let rooted := IsPathSeparator c
    let out :=
      if rooted then cleanLoop true (c :: t).length t [Separator] 1
      else cleanLoop false (c :: t).length (c :: t) [] 0
    if out.length = 0 then ['.'] else out

/-- The Go function `filepath.Join` (and `path.Join`, the same code on Unix). -/
def Join : List GoString → GoString
  | [] => []
  | e :: rest =>
    if e ≠ [] then Clean (stringsJoin (e :: rest) [Separator]) else Join rest

/-- The Go function `filepath.Abs`; `getwd` is the result of `os.Getwd()`, `none`
when it fails. The second component tells whether an error is returned. -/
def Abs (getwd : Option GoString) (path : GoString) : GoString × Bool :=
  if IsAbs path then (Clean path, false)
  else
    match getwd with
    | none => ([], true)
    | some wd => (Join [wd, path], false)

/-! ## `os`: an in-memory file system

Directory entries are keyed by the list of elements of their absolute path; the
root directory (the empty key) always exists. There are no symbolic links and no
per-file permission bits; a directory may be marked as refusing changes to its
entries. Paths are resolved lexically, which agrees with the kernel on the
cleaned paths this library passes down. -/

/-- Errors returned by the `os` calls. -/
inductive OSError
  | ENOENT | ENOTDIR | EEXIST | EACCES | EISDIR | ENOTEMPTY | EINVAL | EBUSY | ErrClosed
  deriving DecidableEq, Repr

/-- A Go result pair `(value, error)` of which exactly one side is meaningful. -/
inductive Result (α : Type)
  | ok (val : α)
  | err (e : OSError)
  deriving DecidableEq, Repr

/-- The Go function `os.IsNotExist`. -/
def IsNotExist (e : OSError) : Bool := e == OSError.ENOENT

/-- What a directory entry is. -/
inductive Kind
  | file | dir
  deriving DecidableEq, Repr

/-- The elements of an absolute path, root first. -/
abbrev Key := List GoString

/-- State-changing calls made to the operating system, in the order made. -/
inductive Event
  | close (h : Nat)
  | remove (path : GoString)
  | rename (oldpath newpath : GoString)
  | mkdir (path : GoString)
  | openRead (path : GoString)
  | openAppend (path : GoString)
  deriving DecidableEq, Repr

/-- The state of the operating system seen by the process. -/
structure FS where
  /-- result of `os.Getwd()`, `none` when it fails -/
  wd : Option GoString
  /-- the directory entries other than the root -/
  nodes : List (Key × Kind)
  /-- directories in which entries can be neither created nor removed -/
  readOnlyDirs : List Key
  /-- the `*os.File` handles that are open -/
  openHandles : List Nat
  /-- the next handle to hand out -/
  nextHandle : Nat
  /-- the state-changing calls made so far -/
  log : List Event
  deriving DecidableEq, Repr

/-- Splits a path at its separators, dropping empty elements. `cur` is the element being read. -/
def elementsAux : GoString → GoString → List GoString
  | [], cur => if cur = [] then [] else [cur]
  | c :: t, cur =>
    if IsPathSeparator c then
      (if cur = [] then elementsAux t [] else cur :: elementsAux t [])
    else elementsAux t (cur ++ [c])

/-- Path resolution: the key of the entry a path string names. The empty path names
nothing, and neither does a relative path when there is no working directory. -/
def resolve (fs : FS) (path : GoString) : Option Key :=
  if path = [] then none
  else if IsAbs path then some (elementsAux (Clean path) [])
  else
    match fs.wd with
    | none => none
    | some wd => some (elementsAux (Clean (wd ++ [Separator] ++ path)) [])

/-- The entry stored under a key, the root being a directory. -/
def lookupNode (fs : FS) (k : Key) : Option Kind :=
  if k = [] then some Kind.dir else fs.nodes.lookup k

/-- Checks that each of the given keys is a directory. -/
def checkDirs (fs : FS) : List Key → Option OSError
  | [] => none
  | a :: rest =>
    match lookupNode fs a with
    | some Kind.dir => checkDirs fs rest
    | some Kind.file => some OSError.ENOTDIR
    | none => some OSError.ENOENT

/-- Walks the proper ancestors of a key, root first: each must be a directory. -/
def walk (fs : FS) (k : Key) : Option OSError := checkDirs fs k.inits.dropLast

/-- The entry a key names, reached through its ancestors. -/
def statKey (fs : FS) (k : Key) : Result Kind :=
  match walk fs k with
  | some e => Result.err e
  | none =>
    match lookupNode fs k with
    | none => Result.err OSError.ENOENT
    | some kind => Result.ok kind

/-- The Go functions `os.Stat` and `os.Lstat`, reduced to the kind of the entry. -/
def osStat (fs : FS) (path : GoString) : Result Kind :=
  match resolve fs path with
  | none => Result.err OSError.ENOENT
  | some k => statKey fs k

/-- Appends a call to the log. -/
def FS.record (fs : FS) (e : Event) : FS := { fs with log := fs.log ++ [e] }

/-- The Go function `os.Mkdir`. -/
def osMkdir (fs : FS) (path : GoString) : FS × Option OSError :=
  let fs1 := fs.record (Event.mkdir path)
  match resolve fs1 path with
  | none => (fs1, some OSError.ENOENT)
  | some k =>
    match walk fs1 k with
    | some e => (fs1, some e)
    | none =>
      match lookupNode fs1 k with
      | some _ => (fs1, some OSError.EEXIST)
      | none =>
        if k.dropLast ∈ fs1.readOnlyDirs then (fs1, some OSError.EACCES)
        else ({ fs1 with nodes := (k, Kind.dir) :: fs1.nodes }, none)

/-- Backward scan `for i > 0 && p(path[i-1]) { i-- }`. -/
def scanBack (p : Char → Bool) (path : GoString) : Nat → Nat
  | 0 => 0
  | i + 1 =>
    match path.get? i with
    | none => i + 1
    | some c => if p c then scanBack p path i else i + 1

/-- The Go function `os.MkdirAll`; each recursive call is on a strictly shorter path. -/
def mkdirAllAux : Nat → FS → GoString → FS × Option OSError
  | 0, fs, _ => (fs, some OSError.EINVAL)
  | fuel + 1, fs, path =>
    match osStat fs path with
    | Result.ok Kind.dir => (fs, none)
    | Result.ok Kind.file => (fs, some OSError.ENOTDIR)
    | Result.err _ =>
      let i := scanBack IsPathSeparator path path.length
      let j := scanBack (fun c => !IsPathSeparator c) path i
      let parent : FS × Option OSError :=
        if j > 1 then mkdirAllAux fuel fs (path.take (j - 1)) else (fs, none)
      match parent.2 with
      | some e => (parent.1, some e)
      | none =>
        let r := osMkdir parent.1 path
        match r.2 with
        | none => (r.1, none)
        | some e =>
          match osStat r.1 path with
          | Result.ok Kind.dir => (r.1, none)
          | _ => (r.1, some e)

/-- The Go function `os.MkdirAll`. -/
def osMkdirAll (fs : FS) (path : GoString) : FS × Option OSError :=
  mkdirAllAux (path.length + 1) fs path

/-- The Go function `os.Remove`. -/
def osRemove (fs : FS) (path : GoString) : FS × Option OSError :=
  let fs1 := fs.record (Event.remove path)
  match resolve fs1 path with
  | none => (fs1, some OSError.ENOENT)
  | some k =>
    match statKey fs1 k with
    | Result.err e => (fs1, some e)
    | Result.ok kind =>
      if k = [] then (fs1, some OSError.EBUSY)
      else if k.dropLast ∈ fs1.readOnlyDirs then (fs1, some OSError.EACCES)
      else if kind = Kind.dir ∧ fs1.nodes.any (fun n => n.1 ≠ [] && n.1.dropLast == k) then
        (fs1, some OSError.ENOTEMPTY)
      else ({ fs1 with nodes := fs1.nodes.filter (fun n => n.1 != k) }, none)

/-- Moves a key from under `ko` to under `kn`. -/
def rekey (ko kn k : Key) : Key :=
  if ko.isPrefixOf k then kn ++ k.drop ko.length else k

/-- The system call `rename(2)`, on resolved keys. -/
def renameKeys (fs : FS) (ko kn : Key) : FS × Option OSError :=
  match statKey fs ko with
  | Result.err e => (fs, some e)
  | Result.ok kind =>
    match walk fs kn with
    | some e => (fs, some e)
    | none =>
      if ko = [] ∨ kn = [] then (fs, some OSError.EBUSY)
      else if ko = kn then (fs, none)
      else if ko.dropLast ∈ fs.readOnlyDirs ∨ kn.dropLast ∈ fs.readOnlyDirs then
        (fs, some OSError.EACCES)
      else
        match kind with
        | Kind.file =>
          match lookupNode fs kn with
          | some Kind.dir => (fs, some OSError.EISDIR)
          | _ =>
            ({ fs with nodes :=
                (kn, Kind.file) :: fs.nodes.filter (fun n => n.1 != ko && n.1 != kn) }, none)
        | Kind.dir =>
          match lookupNode fs kn with
          | some Kind.file => (fs, some OSError.ENOTDIR)
          | some Kind.dir =>
            if fs.nodes.any (fun n => n.1 ≠ [] && n.1.dropLast == kn) then
              (fs, some OSError.ENOTEMPTY)
            else if ko.isPrefixOf kn then (fs, some OSError.EINVAL)
            else
              ({ fs with
                  nodes := (fs.nodes.filter (fun n => n.1 != kn)).map
                    (fun n => (rekey ko kn n.1, n.2))
                  readOnlyDirs := fs.readOnlyDirs.map (rekey ko kn) }, none)
          | none =>
            if ko.isPrefixOf kn then (fs, some OSError.EINVAL)
            else
              ({ fs with
                  nodes := fs.nodes.map (fun n => (rekey ko kn n.1, n.2))
                  readOnlyDirs := fs.readOnlyDirs.map (rekey ko kn) }, none)

/-- The system call `rename(2)`. -/
def sysRename (fs : FS) (oldname newname : GoString) : FS × Option OSError :=
  match resolve fs oldname, resolve fs newname with
  | some ko, some kn => renameKeys fs ko kn
  | _, _ => (fs, some OSError.ENOENT)

/-- The Go function `os.Rename`: a new name that is an existing directory is refused
before the system call, unless it is the old directory under another spelling. -/
def osRename (fs : FS) (oldname newname : GoString) : FS × Option OSError :=
  let fs1 := fs.record (Event.rename oldname newname)
  match osStat fs1 newname with
  | Result.ok Kind.dir =>
    match osStat fs1 oldname with
    | Result.err e => (fs1, some e)
    | Result.ok _ =>
      if newname = oldname ∨ resolve fs1 newname ≠ resolve fs1 oldname then
        (fs1, some OSError.EEXIST)
      else sysRename fs1 oldname newname
  | _ => sysRename fs1 oldname newname

/-- Hands out a fresh open handle. -/
def FS.newHandle (fs : FS) : FS × Nat :=
  ({ fs with openHandles := fs.openHandles ++ [fs.nextHandle], nextHandle := fs.nextHandle + 1 },
    fs.nextHandle)

/-- The Go function `os.Open`. -/
def osOpen (fs : FS) (path : GoString) : FS × Result Nat :=
  let fs1 := fs.record (Event.openRead path)
  match osStat fs1 path with
  | Result.err e => (fs1, Result.err e)
  | Result.ok _ => ((fs1.newHandle).1, Result.ok (fs1.newHandle).2)

/-- The Go call `os.OpenFile(path, os.O_APPEND|os.O_WRONLY, 0644)`: without `O_CREATE` the
file must exist, and a directory cannot be opened for writing. -/
def osOpenAppend (fs : FS) (path : GoString) : FS × Result Nat :=
  let fs1 := fs.record (Event.openAppend path)
  match osStat fs1 path with
  | Result.err e => (fs1, Result.err e)
  | Result.ok Kind.dir => (fs1, Result.err OSError.EISDIR)
  | Result.ok Kind.file => ((fs1.newHandle).1, Result.ok (fs1.newHandle).2)

/-- The method `(*os.File).Close`: closing a handle that is not open fails. -/
def osClose (fs : FS) (h : Nat) : FS × Option OSError :=
  let fs1 := fs.record (Event.close h)
  if h ∈ fs1.openHandles then
    ({ fs1 with openHandles := fs1.openHandles.filter (fun x => x != h) }, none)
  else (fs1, some OSError.ErrClosed)

/-! ## `path.go` -/

/-- The struct `Path`. -/
structure Path where
  path : GoString
  deriving DecidableEq, Repr

/-- The function `NewPath`; the error of `filepath.Abs` is dropped. -/
def NewPath (fs : FS) (relativePath : GoString) : Path :=
  { path := (Abs fs.wd relativePath).1 }

/-- The method `Path.FullPath`. -/
def Path.FullPath (p : Path) : GoString := p.path

/-- The method `Path.Create`: `os.MkdirAll` only when `os.Stat` reports that the path
does not exist. -/
def Path.Create (p : Path) (fs : FS) : FS × Option OSError :=
  match osStat fs p.FullPath with
  | Result.err e => if IsNotExist e then osMkdirAll fs p.FullPath else (fs, none)
  | Result.ok _ => (fs, none)

/-- The method `Path.Equal`. -/
def Path.Equal (p otherPath : Path) : Bool := p.FullPath == otherPath.FullPath

/-! ## `file.go` -/

/-- The struct `File`. A handle is the identity of an `*os.File`; each slice of handles
is modelled by its contents as seen through this struct. The backing array that a File and
its `Clone` share is not modelled: a later `append` through one of them never shows in the
other here, so statements below are about the receiver of a single call only. -/
structure File where
  fileName : GoString
  dirPath : GoString
  readers : List Nat
  writers : List Nat
  deriving DecidableEq, Repr

/-- The program state: the `File` structs allocated so far, addressed by position
(a `*File` is an index), and the operating system. -/
structure World where
  files : List File
  fs : FS
  deriving DecidableEq, Repr

/-- Reads `*p`; `none` for a pointer that addresses nothing. -/
def World.deref (w : World) (p : Nat) : Option File := w.files.get? p

/-- Writes `*p`. -/
def World.store (w : World) (p : Nat) (f : File) : World :=
  { w with files := w.files.set p f }

/-- Allocates a new struct and returns its address. -/
def World.alloc (w : World) (f : File) : World × Nat :=
  ({ w with files := w.files ++ [f] }, w.files.length)

/-- The function `NewFile`; the error of `filepath.Abs` is dropped. -/
def NewFile (w : World) (relativePath : GoString) : World × Nat :=
  let fullPath := (Abs w.fs.wd relativePath).1
  let parts := Split fullPath
  w.alloc { fileName := parts.2, dirPath := parts.1, readers := [], writers := [] }

/-- The method `File.FullPath`. -/
def File.FullPath (f : File) : GoString := Join [f.dirPath, f.fileName]

/-- The method `File.Name`. -/
def File.Name (f : File) : GoString := f.fileName

/-- The method `File.DirPath`. -/
def File.DirPath (f : File) : GoString := f.dirPath

/-- The method `File.BaseName`. -/
def File.BaseName (f : File) : GoString := TrimSuffix f.Name (Ext f.Name)

/-- The method `File.Extension`. -/
def File.Extension (f : File) : GoString := Ext f.Name

/-- The method `File.Equal`. -/
def File.Equal (f otherFile : File) : Bool := f.FullPath == otherFile.FullPath

/-- The method `File.SetDirPath`, on the struct at address `f`. -/
def File.SetDirPath (w : World) (f : Nat) (path : Path) : Option World := do
  let x ← w.deref f
  pure (w.store f { x with dirPath := path.FullPath })

/-- The method `File.SetFileName`, on the struct at address `f`. -/
def File.SetFileName (w : World) (f : Nat) (fileName : GoString) : Option World := do
  let x ← w.deref f
  pure (w.store f { x with fileName := fileName })

/-- The method `File.Clone`: `newFile := &File{}; *newFile = *f`. -/
def File.Clone (w : World) (f : Nat) : Option (World × Nat) := do
  let x ← w.deref f
  pure (w.alloc x)

/-- The method `File.NewWithSuffix`. -/
def File.NewWithSuffix (w : World) (f : Nat) (suffix : GoString) : Option (World × Nat) := do
  let (w1, newFile) ← File.Clone w f
  let x ← w1.deref f
  let nameWithoutExt := TrimSuffix x.Name (Ext x.Name)
  let w2 ← File.SetFileName w1 newFile (nameWithoutExt ++ suffix ++ Ext x.Name)
  pure (w2, newFile)

/-- The method `File.ReadContent`. -/
def File.ReadContent (w : World) (f : Nat) : Option (World × Result Nat) := do
  let x ← w.deref f
  let r := osOpen w.fs x.FullPath
  match r.2 with
  | Result.err e => pure ({ w with fs := r.1 }, Result.err e)
  | Result.ok reader =>
    pure (({ w with fs := r.1 } : World).store f { x with readers := x.readers ++ [reader] },
      Result.ok reader)

/-- The method `File.WriteContent`. -/
def File.WriteContent (w : World) (f : Nat) : Option (World × Result Nat) := do
  let x ← w.deref f
  let r := osOpenAppend w.fs x.FullPath
  match r.2 with
  | Result.err e => pure ({ w with fs := r.1 }, Result.err e)
  | Result.ok writer =>
    pure (({ w with fs := r.1 } : World).store f { x with writers := x.writers ++ [writer] },
      Result.ok writer)

/-- A loop `for _, h := range hs { h.Close() }`, the results of `Close` dropped. -/
def closeAll (fs : FS) : List Nat → FS
  | [] => fs
  | h :: rest => closeAll (osClose fs h).1 rest

/-- The method `File.Remove`. -/
def File.Remove (w : World) (f : Nat) : Option (World × Option OSError) := do
  let x ← w.deref f
  let fs1 := closeAll w.fs x.readers
  let fs2 := closeAll fs1 x.writers
  let r := osRemove fs2 x.FullPath
  pure ({ w with fs := r.1 }, r.2)

/-- The method `File.Move`. -/
def File.Move (w : World) (f : Nat) (newFullPath : GoString) : Option (World × Option OSError) := do
  let x ← w.deref f
  let r := osRename w.fs x.FullPath newFullPath
  pure ({ w with fs := r.1 }, r.2)

/-- The method `File.Rename`. -/
def File.Rename (w : World) (f : Nat) (newName : GoString) : Option (World × Option OSError) := do
  let x ← w.deref f
  let r := osRename w.fs x.FullPath (Join [x.DirPath, newName])
  pure ({ w with fs := r.1 }, r.2)

/-! ## Example states -/

/-- A process in `/home/user` on a file system holding `/tmp/x/old.txt` and the
regular file `/etc/passwd`, with `/etc` read-only. -/
def exampleFS : FS :=
  { wd := some "/home/user".toList
    nodes :=
      [(["home".toList], Kind.dir), (["home".toList, "user".toList], Kind.dir),
       (["tmp".toList], Kind.dir), (["tmp".toList, "x".toList], Kind.dir),
       (["tmp".toList, "x".toList, "old.txt".toList], Kind.file),
       (["etc".toList], Kind.dir), (["etc".toList, "passwd".toList], Kind.file)]
    readOnlyDirs := [["etc".toList]]
    openHandles := []
    nextHandle := 3
    log := [] }

/-- A program that has allocated nothing yet. -/
def exampleWorld : World := { files := [], fs := exampleFS }

/-- The program after `NewFile("/tmp/x/old.txt")`: the struct is at address 0. -/
def worldWithFile : World := (NewFile exampleWorld "/tmp/x/old.txt".toList).1

/-- The program after one successful `ReadContent` and one successful `WriteContent` on the
file of `worldWithFile`: it tracks reader 3 and writer 4. -/
def worldOpened : World :=
  match File.ReadContent worldWithFile 0 with
  | none => worldWithFile
  | some r1 =>
    match File.WriteContent r1.1 0 with
    | none => r1.1
    | some r2 => r2.1

/-! ## The data-model invariant and client programs -/

/-- The data-model invariant of a `File`: no separator in the name, absolute directory. -/
def FileInv (f : File) : Prop := Separator ∉ f.fileName ∧ IsAbs f.dirPath = true

/-- A call of client code that makes or changes a `File`. -/
inductive FileCall
  | NewFile (relativePath : GoString)
  | SetFileName (f : Nat) (fileName : GoString)
  | SetDirPath (f : Nat) (path : Path)
  | Clone (f : Nat)
  | NewWithSuffix (f : Nat) (suffix : GoString)
  deriving DecidableEq, Repr

/-- Runs one call; `none` when it dereferences an address that holds no struct. -/
def FileCall.run (w : World) : FileCall → Option World
  | FileCall.NewFile relativePath => some (GoFilesys.NewFile w relativePath).1
  | FileCall.SetFileName f fileName => File.SetFileName w f fileName
  | FileCall.SetDirPath f path => File.SetDirPath w f path
  | FileCall.Clone f => (File.Clone w f).map (fun r => r.1)
  | FileCall.NewWithSuffix f suffix => (File.NewWithSuffix w f suffix).map (fun r => r.1)

/-- Runs a sequence of calls in order. -/
def runCalls (w : World) : List FileCall → Option World
  | [] => some w
  | c :: rest => (c.run w).bind (fun w1 => runCalls w1 rest)

/-- The receiver address of a call is allocated (`NewFile` has no receiver). -/
def FileCall.receiverOK (n : Nat) : FileCall → Prop
  | FileCall.NewFile _ => True
  | FileCall.SetFileName f _ => f < n
  | FileCall.SetDirPath f _ => f < n
  | FileCall.Clone f => f < n
  | FileCall.NewWithSuffix f _ => f < n

/-- The arguments of a call respect the data model: names and suffixes hold no
separator, directories are absolute, and the path given to `NewFile` can be resolved to an
absolute one. -/
def FileCall.argsOK (fs : FS) : FileCall → Prop
  | FileCall.NewFile relativePath =>
    IsAbs relativePath = true ∨ fs.wd.map IsAbs = some true
  | FileCall.SetFileName _ fileName => Separator ∉ fileName
  | FileCall.SetDirPath _ path => IsAbs path.FullPath = true
  | FileCall.Clone _ => True
  | FileCall.NewWithSuffix _ suffix => Separator ∉ suffix

instance (f : File) : Decidable (FileInv f) := by
  unfold FileInv; infer_instance

instance (fs : FS) (c : FileCall) : Decidable (c.argsOK fs) := by
  cases c <;> unfold FileCall.argsOK <;> infer_instance

/-- The number of structs a call allocates. -/
def FileCall.allocates : FileCall → Nat
  | FileCall.NewFile _ => 1
  | FileCall.SetFileName _ _ => 0
  | FileCall.SetDirPath _ _ => 0
  | FileCall.Clone _ => 1
  | FileCall.NewWithSuffix _ _ => 1

/-- Every call of the sequence has an allocated receiver when it is made, `n` structs
being allocated at the start. -/
def receiversOK (n : Nat) : List FileCall → Prop
  | [] => True
  | c :: rest => c.receiverOK n ∧ receiversOK (n + c.allocates) rest

/-! ## Lemmas on strings and paths -/

theorem drop_eq_cons_of_get? {α : Type} (l : List α) (i : Nat) (c : α) (h : l.get? i = some c) :
    l.drop i = c :: l.drop (i + 1) := by
  rw [List.get?_eq_getElem?] at h
  obtain ⟨hi, hc⟩ := List.getElem?_eq_some_iff.mp h
  rw [List.drop_eq_getElem_cons hi, hc]

theorem TrimSuffix_append (s x : GoString) (h : HasSuffix s x = true) :
    TrimSuffix s x ++ x = s := by
  unfold TrimSuffix
  rw [if_pos h]
  unfold HasSuffix at h
  simp only [Bool.and_eq_true, decide_eq_true_eq, beq_iff_eq] at h
  have key := List.take_append_drop (s.length - x.length) s
  rw [h.2] at key
  exact key

theorem HasSuffix_drop (s : GoString) (i : Nat) : HasSuffix s (s.drop i) = true := by
  unfold HasSuffix
  simp only [Bool.and_eq_true, decide_eq_true_eq, beq_iff_eq, List.length_drop]
  refine ⟨Nat.sub_le _ _, ?_⟩
  by_cases hi : i ≤ s.length
  · have : s.length - (s.length - i) = i := by omega
    rw [this]
  · have h1 : s.length - (s.length - i) = s.length := by omega
    rw [h1, List.drop_of_length_le (le_refl _), List.drop_of_length_le (by omega)]

theorem extLoop_suffix (path : GoString) (n : Nat) :
    extLoop path n = [] ∨ ∃ i, extLoop path n = path.drop i := by
  induction n with
  | zero => left; rfl
  | succ i ih =>
    unfold extLoop
    cases hg : path.get? i with
    | none => left; rfl
    | some c =>
      simp only
      split
      · left; rfl
      · split
        · right; exact ⟨i, rfl⟩
        · exact ih

theorem Ext_suffix (path : GoString) : HasSuffix path (Ext path) = true := by
  rcases extLoop_suffix path path.length with h | ⟨i, h⟩
  · unfold Ext; rw [h]; simp [HasSuffix]
  · unfold Ext; rw [h]; exact HasSuffix_drop path i

theorem TrimSuffix_Ext (path : GoString) : TrimSuffix path (Ext path) ++ Ext path = path :=
  TrimSuffix_append path (Ext path) (Ext_suffix path)

theorem extLoop_shape (path : GoString) (n : Nat)
    (h : ∀ c ∈ path.drop n, c ≠ '.' ∧ c ≠ '/') :
    extLoop path n = [] ∨ ∃ e, extLoop path n = '.' :: e ∧ '.' ∉ e ∧ '/' ∉ e := by
  induction n with
  | zero => left; rfl
  | succ i ih =>
    unfold extLoop
    cases hg : path.get? i with
    | none => left; rfl
    | some c =>
      simp only
      have hd := drop_eq_cons_of_get? path i c hg
      split
      · left; rfl
      · rename_i hsep
        split
        · rename_i hdot
          right
          have hc : c = '.' := by simpa using hdot
          refine ⟨path.drop (i + 1), by rw [hd, hc], ?_, ?_⟩
          · intro hm; exact (h _ hm).1 rfl
          · intro hm; exact (h _ hm).2 rfl
        · rename_i hdot
          apply ih
          intro x hx
          rw [hd] at hx
          rcases List.mem_cons.mp hx with rfl | hx
          · refine ⟨by simpa using hdot, ?_⟩
            intro hc
            apply hsep
            simp [IsPathSeparator, Separator, hc]
          · exact h x hx

theorem Ext_shape (path : GoString) :
    Ext path = [] ∨ ∃ e, Ext path = '.' :: e ∧ '.' ∉ e ∧ '/' ∉ e := by
  apply extLoop_shape
  simp

theorem extLoop_no_dot (path : GoString) (h : '.' ∉ path) (n : Nat) : extLoop path n = [] := by
  induction n with
  | zero => rfl
  | succ i ih =>
    unfold extLoop
    cases hg : path.get? i with
    | none => rfl
    | some c =>
      simp only
      split
      · rfl
      · split
        · rename_i hdot
          have hc : c = '.' := by simpa using hdot
          exact absurd (hc ▸ List.get?_mem hg) h
        · exact ih

theorem extLoop_skip (a b : GoString) (hb : ∀ c ∈ b, c ≠ '.' ∧ c ≠ '/') (k : Nat)
    (hk : k ≤ b.length) :
    extLoop (a ++ b) (a.length + k) = extLoop (a ++ b) a.length := by
  induction k with
  | zero => rfl
  | succ k ih =>
    have hlt : k < b.length := hk
    obtain ⟨c, hc⟩ : ∃ c, b.get? k = some c := ⟨b.get ⟨k, hlt⟩, List.get?_eq_get hlt⟩
    have hg : (a ++ b).get? (a.length + k) = some c := by
      rw [List.get?_eq_getElem?, List.getElem?_append_right (by omega)]
      rw [List.get?_eq_getElem?] at hc
      simpa using hc
    have hm := hb c (List.get?_mem hc)
    rw [← Nat.add_assoc, extLoop, hg]
    simp only
    rw [if_neg (by simp [IsPathSeparator, Separator, hm.2]), if_neg (by simp [hm.1])]
    exact ih (Nat.le_of_lt hlt)

theorem Ext_dot (x e : GoString) (h1 : '.' ∉ e) (h2 : '/' ∉ e) :
    Ext (x ++ '.' :: e) = '.' :: e := by
  have hb : ∀ c ∈ e, c ≠ '.' ∧ c ≠ '/' := by
    intro c hc
    exact ⟨fun h => h1 (h ▸ hc), fun h => h2 (h ▸ hc)⟩
  have hsplit : x ++ '.' :: e = (x ++ ['.']) ++ e := by simp
  unfold Ext
  rw [hsplit, List.length_append, extLoop_skip _ _ hb _ (le_refl _)]
  have hg : ((x ++ ['.']) ++ e).get? x.length = some '.' := by
    rw [List.get?_eq_getElem?, List.append_assoc, List.getElem?_append_right (le_refl _)]
    simp
  rw [List.length_append, List.length_singleton, extLoop, hg]
  simp only
  rw [if_neg (by decide), if_pos (by decide)]
  simp

theorem IsAbs_iff (s : GoString) : IsAbs s = true ↔ s.head? = some '/' := by
  cases s with
  | nil => simp [IsAbs, HasPrefix]
  | cons c t => simp [IsAbs, HasPrefix]

theorem backtrack_ge (out : GoString) (dotdot w : Nat) (h : dotdot ≤ w) :
    dotdot ≤ backtrack out dotdot w := by
  induction w with
  | zero => rw [backtrack]; exact h
  | succ w ih =>
    rw [backtrack]
    cases out.get? (w + 1) with
    | none => exact h
    | some c =>
      simp only
      split
      · rename_i hc
        simp only [Bool.and_eq_true, decide_eq_true_eq] at hc
        exact ih (by omega)
      · exact h

theorem head?_take {α : Type} (l : List α) (k : Nat) (hk : 1 ≤ k) : (l.take k).head? = l.head? := by
  cases l with
  | nil => simp
  | cons a t =>
    cases k with
    | zero => omega
    | succ k => simp

theorem head?_append_left {α : Type} (l m : List α) (a : α) (h : l.head? = some a) :
    (l ++ m).head? = some a := by
  cases l with
  | nil => simp at h
  | cons b t => simpa using h

theorem cleanLoop_rooted (fuel : Nat) (rest out : GoString) (h : out.head? = some '/') :
    (cleanLoop true fuel rest out 1).head? = some '/' := by
  induction fuel generalizing rest out with
  | zero => rw [cleanLoop]; exact h
  | succ fuel ih =>
    cases rest with
    | nil => rw [cleanLoop]; exact h
    | cons c t =>
      rw [cleanLoop]
      split
      · exact ih _ _ h
      · split
        · exact ih _ _ h
        · split
          · split
            · rename_i hlen
              apply ih
              rw [head?_take _ _ (backtrack_ge out 1 (out.length - 1) (by omega))]
              exact h
            · simp only [Bool.not_true, Bool.false_eq_true, if_false]
              exact ih _ _ h
          · apply ih
            apply head?_append_left
            split
            · exact head?_append_left _ _ _ h
            · exact h

theorem Clean_rooted (path : GoString) (h : IsAbs path = true) : IsAbs (Clean path) = true := by
  rw [IsAbs_iff] at h ⊢
  cases path with
  | nil => simp at h
  | cons c t =>
    have hc : c = '/' := by simpa using h
    subst hc
    have key : (cleanLoop true ('/' :: t).length t [Separator] 1).head? = some '/' :=
      cleanLoop_rooted _ _ _ rfl
    have hne : (cleanLoop true ('/' :: t).length t [Separator] 1).length ≠ 0 := by
      intro h0
      rw [List.length_eq_zero.mp h0] at key
      simp at key
    have hdef : Clean ('/' :: t) =
        (if (cleanLoop true ('/' :: t).length t [Separator] 1).length = 0 then ['.']
         else cleanLoop true ('/' :: t).length t [Separator] 1) := rfl
    rw [hdef, if_neg hne]
    exact key

theorem Join_rooted (d x : GoString) (h : IsAbs d = true) : IsAbs (Join [d, x]) = true := by
  have hd : d ≠ [] := by
    intro h0; subst h0; simp [IsAbs, HasPrefix] at h
  rw [Join, if_pos hd]
  apply Clean_rooted
  rw [IsAbs_iff] at h ⊢
  simp only [stringsJoin]
  exact head?_append_left _ _ _ (head?_append_left _ _ _ h)

theorem Abs_rooted (getwd : Option GoString) (path : GoString)
    (h : IsAbs path = true ∨ ∃ wd, getwd = some wd ∧ IsAbs wd = true) :
    IsAbs (Abs getwd path).1 = true := by
  unfold Abs
  by_cases hp : IsAbs path = true
  · rw [if_pos hp]; exact Clean_rooted path hp
  · rw [if_neg hp]
    rcases h with h | ⟨wd, hwd, habs⟩
    · exact absurd h hp
    · rw [hwd]; exact Join_rooted wd path habs

theorem splitLoop_le (path : GoString) (n : Nat) : splitLoop path n ≤ n := by
  induction n with
  | zero => simp [splitLoop]
  | succ n ih =>
    rw [splitLoop]
    cases path.get? n with
    | none => simp
    | some c =>
      simp only
      split
      · exact le_refl _
      · omega

theorem splitLoop_pos (path : GoString) (h : path.head? = some '/') (n : Nat) (hn : 1 ≤ n) :
    1 ≤ splitLoop path n := by
  induction n with
  | zero => omega
  | succ n ih =>
    rw [splitLoop]
    cases hg : path.get? n with
    | none => simp
    | some c =>
      simp only
      split
      · omega
      · rename_i hsep
        cases n with
        | zero =>
          exfalso
          apply hsep
          cases path with
          | nil => simp at h
          | cons a t =>
            simp at h hg
            simp [IsPathSeparator, Separator, ← hg, h]
        | succ n => exact ih (by omega)

theorem splitLoop_tail (path : GoString) (n : Nat) :
    ∀ c ∈ (path.take n).drop (splitLoop path n), c ≠ '/' := by
  induction n with
  | zero => simp
  | succ n ih =>
    have hnil : (path.take (n + 1)).drop (n + 1) = [] :=
      List.drop_of_length_le (by rw [List.length_take]; omega)
    rw [splitLoop]
    cases hg : path.get? n with
    | none => simp only; rw [hnil]; simp
    | some c =>
      simp only
      split
      · rw [hnil]; simp
      · rename_i hsep
        have hlt : n < path.length := by
          rw [List.get?_eq_getElem?] at hg
          exact (List.getElem?_eq_some_iff.mp hg).1
        have hg1 : path[n]? = some c := by rwa [List.get?_eq_getElem?] at hg
        have htake : path.take (n + 1) = path.take n ++ [c] := by
          rw [List.take_succ, hg1]; rfl
        have hle : splitLoop path n ≤ (path.take n).length := by
          have h1 := splitLoop_le path n
          rw [List.length_take]
          omega
        rw [htake, List.drop_append_of_le_length hle]
        intro x hx
        rcases List.mem_append.mp hx with hx | hx
        · exact ih x hx
        · have : x = c := by simpa using hx
          subst this
          intro hc
          apply hsep
          simp [IsPathSeparator, Separator, hc]

theorem Split_name_no_sep (path : GoString) : '/' ∉ (Split path).2 := by
  intro hm
  have := splitLoop_tail path path.length '/'
  rw [List.take_length] at this
  exact this hm rfl

theorem Split_dir_rooted (path : GoString) (h : IsAbs path = true) :
    IsAbs (Split path).1 = true := by
  rw [IsAbs_iff] at h ⊢
  have hlen : 1 ≤ path.length := by
    cases path with
    | nil => simp at h
    | cons a t => simp
  simp only [Split]
  rw [head?_take _ _ (splitLoop_pos path h path.length hlen)]
  exact h


/-! ## The iteration bounds are never reached -/

theorem length_dropWhile_le {α : Type} (p : α → Bool) (l : List α) :
    (l.dropWhile p).length ≤ l.length := by
  induction l with
  | nil => simp
  | cons a t ih =>
    rw [List.dropWhile_cons]
    split
    · exact Nat.le_succ_of_le ih
    · exact le_refl _

theorem cleanLoop_fuel (rooted : Bool) (fuel : Nat) :
    ∀ (fuel1 : Nat) (rest out : GoString) (dotdot : Nat),
      rest.length ≤ fuel → rest.length ≤ fuel1 →
      cleanLoop rooted fuel rest out dotdot = cleanLoop rooted fuel1 rest out dotdot := by
  induction fuel with
  | zero =>
    intro fuel1 rest out dotdot h1 _
    have hnil : rest = [] := List.length_eq_zero.mp (Nat.le_zero.mp h1)
    subst hnil
    cases fuel1 <;> simp [cleanLoop]
  | succ n ih =>
    intro fuel1 rest out dotdot h1 h2
    cases rest with
    | nil => cases fuel1 <;> simp [cleanLoop]
    | cons c t =>
      cases fuel1 with
      | zero => simp at h2
      | succ m =>
        have ht : t.length ≤ n := by simpa using h1
        have ht1 : t.length ≤ m := by simpa using h2
        have htt : t.tail.length ≤ n := by rw [List.length_tail]; omega
        have htt1 : t.tail.length ≤ m := by rw [List.length_tail]; omega
        rw [cleanLoop, cleanLoop]
        by_cases hsep : IsPathSeparator c = true
        · rw [if_pos hsep, if_pos hsep]
          exact ih _ _ _ _ ht ht1
        · rw [if_neg hsep, if_neg hsep]
          by_cases hdot : (c == '.' && endOfElem t) = true
          · rw [if_pos hdot, if_pos hdot]
            exact ih _ _ _ _ ht ht1
          · rw [if_neg hdot, if_neg hdot]
            by_cases hdd : (c == '.' && (t.head? == some '.') && endOfElem t.tail) = true
            · rw [if_pos hdd, if_pos hdd]
              by_cases hlen : out.length > dotdot
              · rw [if_pos hlen, if_pos hlen]
                exact ih _ _ _ _ htt htt1
              · rw [if_neg hlen, if_neg hlen]
                by_cases hroot : (!rooted) = true
                · rw [if_pos hroot, if_pos hroot]
                  exact ih _ _ _ _ htt htt1
                · rw [if_neg hroot, if_neg hroot]
                  exact ih _ _ _ _ htt htt1
            · rw [if_neg hdd, if_neg hdd]
              have hdrop : (c :: t).dropWhile (fun x => !IsPathSeparator x) =
                  t.dropWhile (fun x => !IsPathSeparator x) := by
                rw [List.dropWhile_cons]
                simp [hsep]
              have hle := length_dropWhile_le (fun x => !IsPathSeparator x) t
              apply ih
              · rw [hdrop]; omega
              · rw [hdrop]; omega

/-- The iteration bound of `Clean` is never what stops its loop: more iterations give the
same result. -/
theorem Clean_fuel (c : Char) (t : GoString) (extra : Nat) :
    Clean (c :: t) =
      (if (if IsPathSeparator c then cleanLoop true ((c :: t).length + extra) t [Separator] 1
            else cleanLoop false ((c :: t).length + extra) (c :: t) [] 0).length = 0
        then ['.']
        else (if IsPathSeparator c then cleanLoop true ((c :: t).length + extra) t [Separator] 1
            else cleanLoop false ((c :: t).length + extra) (c :: t) [] 0)) := by
  have h1 : cleanLoop true (c :: t).length t [Separator] 1 =
      cleanLoop true ((c :: t).length + extra) t [Separator] 1 :=
    cleanLoop_fuel true _ _ _ _ _ (by simp) (by simp; omega)
  have h2 : cleanLoop false (c :: t).length (c :: t) [] 0 =
      cleanLoop false ((c :: t).length + extra) (c :: t) [] 0 :=
    cleanLoop_fuel false _ _ _ _ _ (le_refl _) (by omega)
  simp only [Clean, h1, h2]

theorem scanBack_le (p : Char → Bool) (path : GoString) (n : Nat) : scanBack p path n ≤ n := by
  induction n with
  | zero => simp [scanBack]
  | succ n ih =>
    rw [scanBack]
    cases path.get? n with
    | none => exact le_refl _
    | some c =>
      simp only
      split
      · omega
      · exact le_refl _

/-- The recursion bound of `os.MkdirAll` is never reached: any bound above the length of
the path gives the same result. -/
theorem mkdirAllAux_fuel (fuel : Nat) :
    ∀ (fuel1 : Nat) (fs : FS) (path : GoString), path.length < fuel → path.length < fuel1 →
      mkdirAllAux fuel fs path = mkdirAllAux fuel1 fs path := by
  induction fuel with
  | zero => intro fuel1 fs path h1 _; omega
  | succ n ih =>
    intro fuel1 fs path h1 h2
    cases fuel1 with
    | zero => omega
    | succ m =>
      rw [mkdirAllAux, mkdirAllAux]
      have hj := scanBack_le (fun c => !IsPathSeparator c) path
        (scanBack IsPathSeparator path path.length)
      have hi := scanBack_le IsPathSeparator path path.length
      by_cases hgt : scanBack (fun c => !IsPathSeparator c) path
          (scanBack IsPathSeparator path path.length) > 1
      · have hlen : (path.take (scanBack (fun c => !IsPathSeparator c) path
            (scanBack IsPathSeparator path path.length) - 1)).length < path.length := by
          rw [List.length_take]; omega
        have e := ih m fs (path.take (scanBack (fun c => !IsPathSeparator c) path
            (scanBack IsPathSeparator path path.length) - 1)) (by omega) (by omega)
        simp only [e]
      · simp only [if_neg hgt]

/-! ## Lemmas on the heap of `File` structs -/

theorem deref_lt (w : World) (p : Nat) (x : File) (h : w.deref p = some x) :
    p < w.files.length := by
  unfold World.deref at h
  rw [List.get?_eq_getElem?] at h
  exact (List.getElem?_eq_some_iff.mp h).1

theorem deref_alloc_old (w : World) (y : File) (p : Nat) (x : File) (h : w.deref p = some x) :
    (w.alloc y).1.deref p = some x := by
  have hlt := deref_lt w p x h
  unfold World.deref at h ⊢
  simp only [World.alloc]
  rw [List.get?_eq_getElem?] at h ⊢
  rw [List.getElem?_append_left hlt]
  exact h

theorem deref_alloc_new (w : World) (y : File) : (w.alloc y).1.deref (w.alloc y).2 = some y := by
  simp [World.deref, World.alloc, List.get?_eq_getElem?]

theorem deref_store_same (w : World) (p : Nat) (x y : File) (h : w.deref p = some x) :
    (w.store p y).deref p = some y := by
  have hlt := deref_lt w p x h
  simp [World.deref, World.store, List.get?_eq_getElem?, List.getElem?_set, hlt]

theorem deref_store_other (w : World) (p q : Nat) (y : File) (h : q ≠ p) :
    (w.store p y).deref q = w.deref q := by
  simp [World.deref, World.store, List.get?_eq_getElem?, List.getElem?_set, h.symm]

theorem Clone_eq (w : World) (f : Nat) (x : File) (h : w.deref f = some x) :
    File.Clone w f = some (w.alloc x) := by
  simp [File.Clone, h]

theorem NewWithSuffix_eq (w : World) (f : Nat) (x : File) (suffix : GoString)
    (h : w.deref f = some x) :
    File.NewWithSuffix w f suffix =
      some ((w.alloc x).1.store (w.alloc x).2
        { x with fileName := TrimSuffix x.Name (Ext x.Name) ++ suffix ++ Ext x.Name },
        (w.alloc x).2) := by
  have h1 := deref_alloc_old w x f x h
  have h2 := deref_alloc_new w x
  simp only [File.NewWithSuffix, Clone_eq w f x h, File.SetFileName, Option.bind_eq_bind,
    Option.some_bind, h1, h2, Option.pure_def]

/-! ## Claims -/

/-- C3: for every File, `BaseName()` followed by `Extension()` is `Name()`. `Extension()` is
a suffix of the name that is either empty or a dot followed by characters that are neither a
dot nor a separator (the last dot-prefixed suffix); it is empty when the name has no dot, and
then `BaseName()` is the name unchanged. For a name `X.e` whose `e` holds neither a dot nor a
separator, `Extension()` is `.e` and `BaseName()` is `X`. -/
theorem BaseName_append_Extension (f : File) :
    f.BaseName ++ f.Extension = f.Name ∧
    HasSuffix f.Name f.Extension = true ∧
    (f.Extension = [] ∨ ∃ e, f.Extension = '.' :: e ∧ '.' ∉ e ∧ '/' ∉ e) ∧
    ('.' ∉ f.Name → f.Extension = []) ∧
    (f.Extension = [] → f.BaseName = f.Name) ∧
    (∀ X e, f.Name = X ++ '.' :: e → '.' ∉ e → '/' ∉ e →
      f.Extension = '.' :: e ∧ f.BaseName = X) := by
  refine ⟨TrimSuffix_Ext f.Name, Ext_suffix f.Name, Ext_shape f.Name, ?_, ?_, ?_⟩
  · intro h
    exact extLoop_no_dot f.Name h _
  · intro h
    have := TrimSuffix_Ext f.Name
    unfold File.Extension at h
    rw [h, List.append_nil] at this
    unfold File.BaseName
    rw [h]
    exact this
  · intro X e hx h1 h2
    have hext : Ext f.Name = '.' :: e := by rw [hx]; exact Ext_dot X e h1 h2
    have htrim := TrimSuffix_Ext f.Name
    rw [hext] at htrim
    refine ⟨hext, ?_⟩
    show TrimSuffix f.Name (Ext f.Name) = X
    rw [hext]
    rw [hx] at htrim ⊢
    exact List.append_cancel_right htrim

/-- C3, on the name `filename.txt`: `Extension()` is `.txt`, `BaseName()` is `filename`; on
the name `archive.tar.gz` the extension is the last dot-prefixed suffix `.gz`; on the name
`README` the extension is empty and `BaseName()` is the name. -/
theorem BaseName_append_Extension_witness :
    File.Extension (File.mk "filename.txt".toList "/home/user/".toList [] []) = ".txt".toList ∧
    File.BaseName (File.mk "filename.txt".toList "/home/user/".toList [] []) =
      "filename".toList ∧
    File.Extension (File.mk "archive.tar.gz".toList "/home/user/".toList [] []) =
      ".gz".toList ∧
    File.BaseName (File.mk "archive.tar.gz".toList "/home/user/".toList [] []) =
      "archive.tar".toList ∧
    File.Extension (File.mk "README".toList "/home/user/".toList [] []) = [] ∧
    File.BaseName (File.mk "README".toList "/home/user/".toList [] []) = "README".toList :=
  have h1 := (BaseName_append_Extension
    (File.mk "filename.txt".toList "/home/user/".toList [] [])).2.2.2.2.2
    "filename".toList "txt".toList rfl (by decide) (by decide)
  have h2 := (BaseName_append_Extension
    (File.mk "archive.tar.gz".toList "/home/user/".toList [] [])).2.2.2.2.2
    "archive.tar".toList "gz".toList rfl (by decide) (by decide)
  have h3 := (BaseName_append_Extension
    (File.mk "README".toList "/home/user/".toList [] [])).2.2.2.1 (by decide)
  have h4 := (BaseName_append_Extension
    (File.mk "README".toList "/home/user/".toList [] [])).2.2.2.2.1 h3
  ⟨h1.1, h1.2, h2.1, h2.2, h3, h4⟩

/-- C1: `f.NewWithSuffix(s)` returns a File with the directory path of `f` whose name is
`f.BaseName() + s + f.Extension()`: for a name `X.ext` it is `X + s + .ext`, and for a name
without extension it is the name followed by `s`. -/
theorem NewWithSuffix_name (w : World) (f : Nat) (x : File) (suffix : GoString)
    (h : w.deref f = some x) :
    ∃ w1 g y, File.NewWithSuffix w f suffix = some (w1, g) ∧ w1.deref g = some y ∧
      y.DirPath = x.DirPath ∧
      y.Name = x.BaseName ++ suffix ++ x.Extension ∧
      (∀ X ext, x.Name = X ++ '.' :: ext → '.' ∉ ext → '/' ∉ ext →
        y.Name = X ++ suffix ++ '.' :: ext) ∧
      (x.Extension = [] → y.Name = x.Name ++ suffix) := by
  refine ⟨_, _, _, NewWithSuffix_eq w f x suffix h,
    deref_store_same _ _ x _ (deref_alloc_new w x), rfl, rfl, ?_, ?_⟩
  · intro X ext hx h1 h2
    have hext : Ext x.Name = '.' :: ext := by rw [hx]; exact Ext_dot X ext h1 h2
    have htrim := TrimSuffix_Ext x.Name
    rw [hext] at htrim
    have hX : TrimSuffix x.Name ('.' :: ext) = X := by
      rw [hx] at htrim ⊢
      exact List.append_cancel_right htrim
    show TrimSuffix x.Name (Ext x.Name) ++ suffix ++ Ext x.Name = _
    rw [hext, hX]
  · intro hext
    have htrim := TrimSuffix_Ext x.Name
    unfold File.Extension at hext
    rw [hext, List.append_nil] at htrim
    show TrimSuffix x.Name (Ext x.Name) ++ suffix ++ Ext x.Name = _
    rw [hext, htrim, List.append_nil]

/-- C1, on the test of the repository: `NewFile("filename.txt").NewWithSuffix("_suffix")` has
the name `filename_suffix.txt`. -/
theorem NewWithSuffix_name_witness :
    ((File.NewWithSuffix (NewFile exampleWorld "filename.txt".toList).1 0 "_suffix".toList).bind
        (fun r => r.1.deref r.2)).map File.Name = some "filename_suffix.txt".toList ∧
    ∃ w1 g y, File.NewWithSuffix (NewFile exampleWorld "filename.txt".toList).1 0
        "_suffix".toList = some (w1, g) ∧ w1.deref g = some y ∧
      y.DirPath = "/home/user/".toList ∧
      y.Name = "filename".toList ++ "_suffix".toList ++ ".txt".toList ∧
      (∀ X ext, "filename.txt".toList = X ++ '.' :: ext → '.' ∉ ext → '/' ∉ ext →
        y.Name = X ++ "_suffix".toList ++ '.' :: ext) ∧
      (".txt".toList = [] → y.Name = "filename.txt".toList ++ "_suffix".toList) :=
  ⟨by decide,
   NewWithSuffix_name (NewFile exampleWorld "filename.txt".toList).1 0
    (File.mk "filename.txt".toList "/home/user/".toList [] []) "_suffix".toList (by decide)⟩

/-- C2: `f.NewWithSuffix(s)` leaves the receiver as it was: the struct at the address of `f`
is unchanged (so are `Name()` and `DirPath()`), the new name is written to a freshly
allocated copy at another address, every other struct and the operating system are
untouched. -/
theorem NewWithSuffix_receiver_unchanged (w : World) (f : Nat) (x : File) (suffix : GoString)
    (h : w.deref f = some x) :
    ∃ w1 g, File.NewWithSuffix w f suffix = some (w1, g) ∧
      w1.deref f = some x ∧
      (w1.deref f).map File.Name = (w.deref f).map File.Name ∧
      (w1.deref f).map File.DirPath = (w.deref f).map File.DirPath ∧
      g ≠ f ∧ w.deref g = none ∧
      (∀ p q, w.deref p = some q → w1.deref p = some q) ∧
      w1.fs = w.fs := by
  have hlt := deref_lt w f x h
  have hne : f ≠ (w.alloc x).2 := by
    simp only [World.alloc]; omega
  have hkeep : ∀ p q, w.deref p = some q →
      ((w.alloc x).1.store (w.alloc x).2
        { x with fileName := TrimSuffix x.Name (Ext x.Name) ++ suffix ++ Ext x.Name }).deref p
        = some q := by
    intro p q hp
    have hpl := deref_lt w p q hp
    have hpne : p ≠ (w.alloc x).2 := by
      simp only [World.alloc]; omega
    rw [deref_store_other _ _ _ _ hpne]
    exact deref_alloc_old w x p q hp
  have hf := hkeep f x h
  refine ⟨_, _, NewWithSuffix_eq w f x suffix h, hf, ?_, ?_, hne.symm, ?_, hkeep, rfl⟩
  · rw [hf, h]
  · rw [hf, h]
  · simp [World.deref, World.alloc, List.get?_eq_getElem?]

/-- C2, on the test of the repository: after `NewFile("filename.txt").NewWithSuffix("_suffix")`
the name of the original file is still `filename.txt`. -/
theorem NewWithSuffix_receiver_unchanged_witness :
    ((File.NewWithSuffix (NewFile exampleWorld "filename.txt".toList).1 0 "_suffix".toList).bind
        (fun r => r.1.deref 0)).map File.Name = some "filename.txt".toList ∧
    ∃ w1 g, File.NewWithSuffix (NewFile exampleWorld "filename.txt".toList).1 0
        "_suffix".toList = some (w1, g) ∧
      w1.deref 0 = some (File.mk "filename.txt".toList "/home/user/".toList [] []) ∧
      (w1.deref 0).map File.Name =
        ((NewFile exampleWorld "filename.txt".toList).1.deref 0).map File.Name ∧
      (w1.deref 0).map File.DirPath =
        ((NewFile exampleWorld "filename.txt".toList).1.deref 0).map File.DirPath ∧
      g ≠ 0 ∧ (NewFile exampleWorld "filename.txt".toList).1.deref g = none ∧
      (∀ p q, (NewFile exampleWorld "filename.txt".toList).1.deref p = some q →
        w1.deref p = some q) ∧
      w1.fs = (NewFile exampleWorld "filename.txt".toList).1.fs :=
  ⟨by decide,
   NewWithSuffix_receiver_unchanged (NewFile exampleWorld "filename.txt".toList).1 0
    (File.mk "filename.txt".toList "/home/user/".toList [] []) "_suffix".toList (by decide)⟩

/-- C7: `Equal` holds exactly when the full paths are the same string, and it is reflexive,
symmetric and transitive, for Files and for Paths. -/
theorem Equal_equivalence :
    (∀ a b : File, a.Equal b = true ↔ a.FullPath = b.FullPath) ∧
    (∀ a : File, a.Equal a = true) ∧
    (∀ a b : File, a.Equal b = true → b.Equal a = true) ∧
    (∀ a b c : File, a.Equal b = true → b.Equal c = true → a.Equal c = true) ∧
    (∀ a b : Path, a.Equal b = true ↔ a.FullPath = b.FullPath) ∧
    (∀ a : Path, a.Equal a = true) ∧
    (∀ a b : Path, a.Equal b = true → b.Equal a = true) ∧
    (∀ a b c : Path, a.Equal b = true → b.Equal c = true → a.Equal c = true) := by
  refine ⟨?_, ?_, ?_, ?_, ?_, ?_, ?_, ?_⟩
  · intro a b; simp [File.Equal]
  · intro a; simp [File.Equal]
  · intro a b h; simp only [File.Equal, beq_iff_eq] at h ⊢; exact h.symm
  · intro a b c h1 h2; simp only [File.Equal, beq_iff_eq] at h1 h2 ⊢; exact h1.trans h2
  · intro a b; simp [Path.Equal]
  · intro a; simp [Path.Equal]
  · intro a b h; simp only [Path.Equal, beq_iff_eq] at h ⊢; exact h.symm
  · intro a b c h1 h2; simp only [Path.Equal, beq_iff_eq] at h1 h2 ⊢; exact h1.trans h2

/-- C9 as stated fails: the clone of a File that tracks reader 3 and writer 4 tracks the
same reader 3 and the same writer 4. -/
theorem Clone_shares_handles :
    (worldOpened.deref 0).map File.readers = some [3] ∧
    (worldOpened.deref 0).map File.writers = some [4] ∧
    ((File.Clone worldOpened 0).bind (fun r => r.1.deref r.2)).map File.readers = some [3] ∧
    ((File.Clone worldOpened 0).bind (fun r => r.1.deref r.2)).map File.writers = some [4] := by
  decide

/-- C9, amended: `f.Clone()` returns a freshly allocated File that is a field-by-field copy
of `f`: the same directory path, the same file name, and the same tracked readers and
writers as `f`; the receiver and the operating system are untouched. -/
theorem Clone_copies_fields (w : World) (f : Nat) (x : File) (h : w.deref f = some x) :
    ∃ w1 g y, File.Clone w f = some (w1, g) ∧ w1.deref g = some y ∧
      y.DirPath = x.DirPath ∧ y.Name = x.Name ∧
      y.readers = x.readers ∧ y.writers = x.writers ∧
      g ≠ f ∧ w.deref g = none ∧ w1.deref f = some x ∧ w1.fs = w.fs := by
  have hlt := deref_lt w f x h
  have hne : (w.alloc x).2 ≠ f := by
    simp only [World.alloc]; omega
  have hfresh : w.deref (w.alloc x).2 = none := by
    simp [World.deref, World.alloc, List.get?_eq_getElem?]
  exact ⟨_, _, x, Clone_eq w f x h, deref_alloc_new w x, rfl, rfl, rfl, rfl, hne, hfresh,
    deref_alloc_old w x f x h, rfl⟩

/-- C9, amended, on a File that tracks reader 3 and writer 4. -/
theorem Clone_copies_fields_witness :
    ∃ w1 g y, File.Clone worldOpened 0 = some (w1, g) ∧ w1.deref g = some y ∧
      y.DirPath = "/tmp/x/".toList ∧ y.Name = "old.txt".toList ∧
      y.readers = [3] ∧ y.writers = [4] ∧
      g ≠ 0 ∧ worldOpened.deref g = none ∧
      w1.deref 0 = some (File.mk "old.txt".toList "/tmp/x/".toList [3] [4]) ∧
      w1.fs = worldOpened.fs :=
  Clone_copies_fields worldOpened 0
    (File.mk "old.txt".toList "/tmp/x/".toList [3] [4]) (by decide)


/-! ## The data-model invariant -/

theorem mem_of_deref (w : World) (p : Nat) (x : File) (h : w.deref p = some x) :
    x ∈ w.files := by
  unfold World.deref at h
  exact List.get?_mem h

theorem NewFile_inv (w : World) (relativePath : GoString)
    (h : IsAbs relativePath = true ∨ w.fs.wd.map IsAbs = some true) :
    FileInv { fileName := (Split (Abs w.fs.wd relativePath).1).2,
              dirPath := (Split (Abs w.fs.wd relativePath).1).1, readers := [], writers := [] } := by
  refine ⟨Split_name_no_sep _, Split_dir_rooted _ (Abs_rooted _ _ ?_)⟩
  rcases h with h | h
  · exact Or.inl h
  · right
    cases hwd : w.fs.wd with
    | none => rw [hwd] at h; simp at h
    | some wd => rw [hwd] at h; exact ⟨wd, rfl, by simpa using h⟩

theorem NewWithSuffix_name_no_sep (name suffix : GoString) (h1 : Separator ∉ name)
    (h2 : Separator ∉ suffix) :
    Separator ∉ TrimSuffix name (Ext name) ++ suffix ++ Ext name := by
  have hsplit := TrimSuffix_Ext name
  intro hm
  rcases List.mem_append.mp hm with hm | hm
  · rcases List.mem_append.mp hm with hm | hm
    · apply h1; rw [← hsplit]; exact List.mem_append_left _ hm
    · exact h2 hm
  · apply h1; rw [← hsplit]; exact List.mem_append_right _ hm

theorem run_inv (w w1 : World) (c : FileCall) (hinv : ∀ x ∈ w.files, FileInv x)
    (hargs : c.argsOK w.fs) (hrun : c.run w = some w1) :
    (∀ x ∈ w1.files, FileInv x) ∧ w1.fs = w.fs := by
  cases c with
  | NewFile relativePath =>
    simp only [FileCall.run, Option.some.injEq] at hrun
    subst hrun
    refine ⟨?_, rfl⟩
    intro x hx
    simp only [NewFile, World.alloc, List.mem_append, List.mem_singleton] at hx
    rcases hx with hx | hx
    · exact hinv x hx
    · rw [hx]; exact NewFile_inv w relativePath hargs
  | SetFileName f fileName =>
    simp only [FileCall.run, File.SetFileName] at hrun
    cases hd : w.deref f with
    | none => rw [hd] at hrun; simp at hrun
    | some y =>
      rw [hd] at hrun
      simp only [Option.bind_eq_bind, Option.some_bind, Option.pure_def, Option.some.injEq] at hrun
      subst hrun
      refine ⟨?_, rfl⟩
      intro x hx
      rcases List.mem_or_eq_of_mem_set hx with hx | hx
      · exact hinv x hx
      · rw [hx]; exact ⟨hargs, (hinv y (mem_of_deref w f y hd)).2⟩
  | SetDirPath f path =>
    simp only [FileCall.run, File.SetDirPath] at hrun
    cases hd : w.deref f with
    | none => rw [hd] at hrun; simp at hrun
    | some y =>
      rw [hd] at hrun
      simp only [Option.bind_eq_bind, Option.some_bind, Option.pure_def, Option.some.injEq] at hrun
      subst hrun
      refine ⟨?_, rfl⟩
      intro x hx
      rcases List.mem_or_eq_of_mem_set hx with hx | hx
      · exact hinv x hx
      · rw [hx]; exact ⟨(hinv y (mem_of_deref w f y hd)).1, hargs⟩
  | Clone f =>
    simp only [FileCall.run] at hrun
    cases hd : w.deref f with
    | none => simp [File.Clone, hd] at hrun
    | some y =>
      rw [Clone_eq w f y hd] at hrun
      simp only [Option.map_some', Option.some.injEq] at hrun
      subst hrun
      refine ⟨?_, rfl⟩
      intro x hx
      simp only [World.alloc, List.mem_append, List.mem_singleton] at hx
      rcases hx with hx | hx
      · exact hinv x hx
      · rw [hx]; exact hinv y (mem_of_deref w f y hd)
  | NewWithSuffix f suffix =>
    simp only [FileCall.run] at hrun
    cases hd : w.deref f with
    | none => simp [File.NewWithSuffix, File.Clone, hd] at hrun
    | some y =>
      rw [NewWithSuffix_eq w f y suffix hd] at hrun
      simp only [Option.map_some', Option.some.injEq] at hrun
      subst hrun
      refine ⟨?_, rfl⟩
      intro x hx
      have hy := hinv y (mem_of_deref w f y hd)
      rcases List.mem_or_eq_of_mem_set hx with hx | hx
      · simp only [World.alloc, List.mem_append, List.mem_singleton] at hx
        rcases hx with hx | hx
        · exact hinv x hx
        · rw [hx]; exact hy
      · rw [hx]; exact ⟨NewWithSuffix_name_no_sep y.fileName suffix hy.1 hargs, hy.2⟩

theorem run_some (w : World) (c : FileCall) (h : c.receiverOK w.files.length) :
    ∃ w1, c.run w = some w1 ∧ w1.files.length = w.files.length + c.allocates := by
  have hderef : ∀ f, f < w.files.length → ∃ y, w.deref f = some y := by
    intro f hf
    exact ⟨w.files.get ⟨f, hf⟩, List.get?_eq_get hf⟩
  cases c with
  | NewFile relativePath =>
    exact ⟨_, rfl, by simp [NewFile, World.alloc, FileCall.allocates]⟩
  | SetFileName f fileName =>
    obtain ⟨y, hy⟩ := hderef f h
    exact ⟨_, by simp only [FileCall.run, File.SetFileName, hy]; rfl,
      by simp [World.store, FileCall.allocates]⟩
  | SetDirPath f path =>
    obtain ⟨y, hy⟩ := hderef f h
    exact ⟨_, by simp only [FileCall.run, File.SetDirPath, hy]; rfl,
      by simp [World.store, FileCall.allocates]⟩
  | Clone f =>
    obtain ⟨y, hy⟩ := hderef f h
    exact ⟨_, by simp only [FileCall.run, Clone_eq w f y hy]; rfl,
      by simp [World.alloc, FileCall.allocates]⟩
  | NewWithSuffix f suffix =>
    obtain ⟨y, hy⟩ := hderef f h
    exact ⟨_, by simp only [FileCall.run, NewWithSuffix_eq w f y suffix hy]; rfl,
      by simp [World.alloc, World.store, FileCall.allocates]⟩

/-- C8 as stated fails: after `NewFile("filename.txt")`, the call `SetFileName("b/c.txt")`
leaves a File whose name holds a separator. -/
theorem SetFileName_breaks_invariant :
    (runCalls exampleWorld
        [FileCall.NewFile "filename.txt".toList, FileCall.SetFileName 0 "b/c.txt".toList]).map
      (fun w => w.files.map File.Name) = some ["b/c.txt".toList] ∧
    Separator ∈ "b/c.txt".toList ∧
    ((runCalls exampleWorld
        [FileCall.NewFile "filename.txt".toList, FileCall.SetFileName 0 "b/c.txt".toList]).bind
      (fun w => w.deref 0)).map (fun x => decide (FileInv x)) = some false := by
  decide

/-- C8, amended: when every File allocated so far has a name without separator and an
absolute directory, then so has every File after any sequence of `NewFile`, `SetFileName`,
`SetDirPath`, `Clone` and `NewWithSuffix` calls in which each name and suffix passed holds
no separator, each Path passed is absolute and each `NewFile` path is absolute or the
working directory is known and absolute; such a sequence runs to its end when each
receiver is allocated. -/
theorem FileInv_preserved (w : World) (calls : List FileCall)
    (hinv : ∀ x ∈ w.files, FileInv x) (hargs : ∀ c ∈ calls, c.argsOK w.fs) :
    (∀ w1, runCalls w calls = some w1 → ∀ x ∈ w1.files, FileInv x) ∧
    (receiversOK w.files.length calls → ∃ w1, runCalls w calls = some w1) := by
  induction calls generalizing w with
  | nil =>
    refine ⟨?_, fun _ => ⟨w, rfl⟩⟩
    intro w1 h
    simp only [runCalls, Option.some.injEq] at h
    subst h
    exact hinv
  | cons c rest ih =>
    have hc : c.argsOK w.fs := hargs c (List.mem_cons_self _ _)
    constructor
    · intro w1 h
      simp only [runCalls] at h
      cases hr : c.run w with
      | none => rw [hr] at h; simp at h
      | some w2 =>
        rw [hr] at h
        simp only [Option.some_bind] at h
        obtain ⟨hinv2, hfs⟩ := run_inv w w2 c hinv hc hr
        have hargs2 : ∀ d ∈ rest, d.argsOK w2.fs := by
          intro d hd; rw [hfs]; exact hargs d (List.mem_cons_of_mem _ hd)
        exact (ih w2 hinv2 hargs2).1 w1 h
    · intro hrec
      obtain ⟨hrc, hrest⟩ := hrec
      obtain ⟨w2, hr, hlen⟩ := run_some w c hrc
      obtain ⟨hinv2, hfs⟩ := run_inv w w2 c hinv hc hr
      have hargs2 : ∀ d ∈ rest, d.argsOK w2.fs := by
        intro d hd; rw [hfs]; exact hargs d (List.mem_cons_of_mem _ hd)
      rw [← hlen] at hrest
      obtain ⟨w3, h3⟩ := (ih w2 hinv2 hargs2).2 hrest
      exact ⟨w3, by simp only [runCalls, hr, Option.some_bind]; exact h3⟩

/-- C8, amended, on a program that makes a File, derives a suffixed one, renames it,
moves the first to another directory and clones it. -/
theorem FileInv_preserved_witness :
    (∀ w1, runCalls exampleWorld
        [FileCall.NewFile "filename.txt".toList, FileCall.NewWithSuffix 0 "_v2".toList,
         FileCall.SetFileName 1 "b.txt".toList,
         FileCall.SetDirPath 0 (NewPath exampleFS "sub".toList), FileCall.Clone 0] = some w1 →
      ∀ x ∈ w1.files, FileInv x) ∧
    (receiversOK exampleWorld.files.length
        [FileCall.NewFile "filename.txt".toList, FileCall.NewWithSuffix 0 "_v2".toList,
         FileCall.SetFileName 1 "b.txt".toList,
         FileCall.SetDirPath 0 (NewPath exampleFS "sub".toList), FileCall.Clone 0] →
      ∃ w1, runCalls exampleWorld
        [FileCall.NewFile "filename.txt".toList, FileCall.NewWithSuffix 0 "_v2".toList,
         FileCall.SetFileName 1 "b.txt".toList,
         FileCall.SetDirPath 0 (NewPath exampleFS "sub".toList), FileCall.Clone 0] = some w1) :=
  FileInv_preserved exampleWorld _ (by decide) (by decide)


/-! ## Handles: `ReadContent`, `WriteContent`, `Remove` -/

theorem osClose_fst (fs : FS) (h : Nat) :
    (osClose fs h).1 =
      { fs with log := fs.log ++ [Event.close h],
                openHandles := fs.openHandles.filter (fun x => x != h) } := by
  unfold osClose
  simp only [FS.record]
  split
  · rfl
  · rename_i hn
    have hfil : fs.openHandles.filter (fun x => x != h) = fs.openHandles := by
      apply List.filter_eq_self.mpr
      intro a ha
      simp only [bne_iff_ne, ne_eq]
      intro hah
      exact hn (hah ▸ ha)
    rw [hfil]

theorem closeAll_log (fs : FS) (hs : List Nat) :
    (closeAll fs hs).log = fs.log ++ hs.map Event.close := by
  induction hs generalizing fs with
  | nil => simp [closeAll]
  | cons h rest ih =>
    rw [closeAll, ih, osClose_fst]
    simp

theorem closeAll_tree (fs : FS) (hs : List Nat) :
    (closeAll fs hs).wd = fs.wd ∧ (closeAll fs hs).nodes = fs.nodes ∧
    (closeAll fs hs).readOnlyDirs = fs.readOnlyDirs := by
  induction hs generalizing fs with
  | nil => simp [closeAll]
  | cons h rest ih =>
    rw [closeAll]
    obtain ⟨h1, h2, h3⟩ := ih (osClose fs h).1
    rw [h1, h2, h3, osClose_fst]
    exact ⟨rfl, rfl, rfl⟩

theorem closeAll_open_subset (fs : FS) (hs : List Nat) (a : Nat)
    (ha : a ∈ (closeAll fs hs).openHandles) : a ∈ fs.openHandles := by
  induction hs generalizing fs with
  | nil => exact ha
  | cons h rest ih =>
    rw [closeAll] at ha
    have := ih (osClose fs h).1 ha
    rw [osClose_fst] at this
    exact (List.mem_filter.mp this).1

theorem closeAll_closed (fs : FS) (hs : List Nat) (a : Nat) (ha : a ∈ hs) :
    a ∉ (closeAll fs hs).openHandles := by
  induction hs generalizing fs with
  | nil => simp at ha
  | cons h rest ih =>
    rw [closeAll]
    rcases List.mem_cons.mp ha with rfl | ha
    · intro hm
      have := closeAll_open_subset _ _ _ hm
      rw [osClose_fst] at this
      simpa using (List.mem_filter.mp this).2
    · exact ih _ ha

theorem lookupNode_congr (fs fs1 : FS) (h : fs1.nodes = fs.nodes) (k : Key) :
    lookupNode fs1 k = lookupNode fs k := by
  simp [lookupNode, h]

theorem checkDirs_congr (fs fs1 : FS) (h : fs1.nodes = fs.nodes) (l : List Key) :
    checkDirs fs1 l = checkDirs fs l := by
  induction l with
  | nil => rfl
  | cons a rest ih => simp only [checkDirs, lookupNode_congr fs fs1 h, ih]

theorem statKey_congr (fs fs1 : FS) (h : fs1.nodes = fs.nodes) (k : Key) :
    statKey fs1 k = statKey fs k := by
  simp only [statKey, walk, checkDirs_congr fs fs1 h, lookupNode_congr fs fs1 h]

theorem resolve_congr (fs fs1 : FS) (h : fs1.wd = fs.wd) (path : GoString) :
    resolve fs1 path = resolve fs path := by
  simp only [resolve, h]

theorem osStat_congr (fs fs1 : FS) (h1 : fs1.wd = fs.wd) (h2 : fs1.nodes = fs.nodes)
    (path : GoString) : osStat fs1 path = osStat fs path := by
  simp only [osStat, resolve_congr fs fs1 h1, statKey_congr fs fs1 h2]

theorem osRemove_log (fs : FS) (path : GoString) :
    (osRemove fs path).1.log = fs.log ++ [Event.remove path] := by
  unfold osRemove
  simp only [FS.record]
  split
  · rfl
  · split
    · rfl
    · split
      · rfl
      · split
        · rfl
        · split <;> rfl

theorem osRemove_open (fs : FS) (path : GoString) :
    (osRemove fs path).1.openHandles = fs.openHandles := by
  unfold osRemove
  simp only [FS.record]
  split
  · rfl
  · split
    · rfl
    · split
      · rfl
      · split
        · rfl
        · split <;> rfl

theorem osRemove_err_congr (fs fs1 : FS) (h1 : fs1.wd = fs.wd) (h2 : fs1.nodes = fs.nodes)
    (h3 : fs1.readOnlyDirs = fs.readOnlyDirs) (path : GoString) :
    (osRemove fs1 path).2 = (osRemove fs path).2 := by
  have hr : resolve (fs1.record (Event.remove path)) path =
      resolve (fs.record (Event.remove path)) path := resolve_congr _ _ h1 path
  have hs : ∀ k, statKey (fs1.record (Event.remove path)) k =
      statKey (fs.record (Event.remove path)) k := statKey_congr _ _ h2
  have hn : (fs1.record (Event.remove path)).nodes = (fs.record (Event.remove path)).nodes := h2
  have hro : (fs1.record (Event.remove path)).readOnlyDirs =
      (fs.record (Event.remove path)).readOnlyDirs := h3
  unfold osRemove
  simp only [hr, hs, hn, hro]
  split
  · rfl
  · split
    · rfl
    · split
      · rfl
      · split
        · rfl
        · split <;> rfl

theorem Remove_eq (w : World) (f : Nat) (x : File) (h : w.deref f = some x) :
    File.Remove w f =
      some ({ w with fs := (osRemove (closeAll (closeAll w.fs x.readers) x.writers) x.FullPath).1 },
        (osRemove (closeAll (closeAll w.fs x.readers) x.writers) x.FullPath).2) := by
  simp only [File.Remove, h, Option.bind_eq_bind, Option.some_bind, Option.pure_def]

/-- C5: `Remove()` calls `Close` on every tracked reader, then on every tracked writer, then
`os.Remove(FullPath())`, in this order and whatever the results of the `Close` calls; its
result is the result of that `os.Remove`, which is the one `os.Remove` gives before the
handles are closed: an error exactly when the removal fails. The File itself is not
changed. -/
theorem Remove_closes_then_removes (w : World) (f : Nat) (x : File) (h : w.deref f = some x) :
    ∃ w1 e, File.Remove w f = some (w1, e) ∧
      w1.fs.log = w.fs.log ++ x.readers.map Event.close ++ x.writers.map Event.close ++
        [Event.remove x.FullPath] ∧
      e = (osRemove (closeAll (closeAll w.fs x.readers) x.writers) x.FullPath).2 ∧
      e = (osRemove w.fs x.FullPath).2 ∧
      w1.files = w.files := by
  refine ⟨_, _, Remove_eq w f x h, ?_, rfl, ?_, rfl⟩
  · show (osRemove _ _).1.log = _
    rw [osRemove_log, closeAll_log, closeAll_log]
  · obtain ⟨a1, a2, a3⟩ := closeAll_tree w.fs x.readers
    obtain ⟨b1, b2, b3⟩ := closeAll_tree (closeAll w.fs x.readers) x.writers
    exact osRemove_err_congr _ _ (b1.trans a1) (b2.trans a2) (b3.trans a3) _

/-- C5, on the File at `/tmp/x/old.txt` with the open reader 3 and the open writer 4: both
are closed, then the file is removed without error. -/
theorem Remove_closes_then_removes_witness :
    (File.Remove worldOpened 0).map (fun r => r.2) = some none ∧
    ∃ w1 e, File.Remove worldOpened 0 = some (w1, e) ∧
      w1.fs.log = worldOpened.fs.log ++ [3].map Event.close ++ [4].map Event.close ++
        [Event.remove "/tmp/x/old.txt".toList] ∧
      e = (osRemove (closeAll (closeAll worldOpened.fs [3]) [4]) "/tmp/x/old.txt".toList).2 ∧
      e = (osRemove worldOpened.fs "/tmp/x/old.txt".toList).2 ∧
      w1.files = worldOpened.files :=
  ⟨by decide,
   Remove_closes_then_removes worldOpened 0 (File.mk "old.txt".toList "/tmp/x/".toList [3] [4])
    (by decide)⟩

/-- C10 as stated fails: after a `Remove()` that returns no error, the File still tracks its
reader 3 and its writer 4. -/
theorem Remove_keeps_handles_tracked :
    (File.Remove worldOpened 0).map (fun r => r.2) = some none ∧
    ((File.Remove worldOpened 0).bind (fun r => r.1.deref 0)).map File.readers = some [3] ∧
    ((File.Remove worldOpened 0).bind (fun r => r.1.deref 0)).map File.writers = some [4] := by
  decide

/-- C10, amended: a successful `ReadContent()` (`WriteContent()`) appends exactly the handle
it returns to the tracked readers (writers) and leaves the other fields as they are, a
failed one leaves the File unchanged; `Remove()` closes every tracked handle and leaves the
File, tracked readers and writers included, unchanged. -/
theorem handles_accumulate (w : World) (f : Nat) (x : File) (h : w.deref f = some x) :
    (∃ w1 r, File.ReadContent w f = some (w1, r) ∧
      ((∃ hd, r = Result.ok hd ∧
          w1.deref f = some { x with readers := x.readers ++ [hd] }) ∨
        (∃ e, r = Result.err e ∧ w1.deref f = some x))) ∧
    (∃ w1 r, File.WriteContent w f = some (w1, r) ∧
      ((∃ hd, r = Result.ok hd ∧
          w1.deref f = some { x with writers := x.writers ++ [hd] }) ∨
        (∃ e, r = Result.err e ∧ w1.deref f = some x))) ∧
    (∃ w1 e, File.Remove w f = some (w1, e) ∧ w1.deref f = some x ∧
      ∀ hd ∈ x.readers ++ x.writers, hd ∉ w1.fs.openHandles) := by
  refine ⟨?_, ?_, ?_⟩
  · simp only [File.ReadContent, h, Option.bind_eq_bind, Option.some_bind, Option.pure_def]
    cases hr : (osOpen w.fs x.FullPath).2 with
    | ok hd =>
      exact ⟨_, _, rfl, Or.inl ⟨hd, rfl, deref_store_same _ f x _ h⟩⟩
    | err e =>
      exact ⟨_, _, rfl, Or.inr ⟨e, rfl, h⟩⟩
  · simp only [File.WriteContent, h, Option.bind_eq_bind, Option.some_bind, Option.pure_def]
    cases hr : (osOpenAppend w.fs x.FullPath).2 with
    | ok hd =>
      exact ⟨_, _, rfl, Or.inl ⟨hd, rfl, deref_store_same _ f x _ h⟩⟩
    | err e =>
      exact ⟨_, _, rfl, Or.inr ⟨e, rfl, h⟩⟩
  · refine ⟨_, _, Remove_eq w f x h, h, ?_⟩
    intro hd hmem
    show hd ∉ (osRemove _ _).1.openHandles
    rw [osRemove_open]
    rcases List.mem_append.mp hmem with hm | hm
    · intro hin
      exact closeAll_closed w.fs x.readers hd hm (closeAll_open_subset _ _ _ hin)
    · exact closeAll_closed _ x.writers hd hm

/-- C10, amended, on the File at `/tmp/x/old.txt` that tracks the reader 3 and the writer 4. -/
theorem handles_accumulate_witness :
    (∃ w1 r, File.ReadContent worldOpened 0 = some (w1, r) ∧
      ((∃ hd, r = Result.ok hd ∧
          w1.deref 0 = some (File.mk "old.txt".toList "/tmp/x/".toList ([3] ++ [hd]) [4])) ∨
        (∃ e, r = Result.err e ∧
          w1.deref 0 = some (File.mk "old.txt".toList "/tmp/x/".toList [3] [4])))) ∧
    (∃ w1 r, File.WriteContent worldOpened 0 = some (w1, r) ∧
      ((∃ hd, r = Result.ok hd ∧
          w1.deref 0 = some (File.mk "old.txt".toList "/tmp/x/".toList [3] ([4] ++ [hd]))) ∨
        (∃ e, r = Result.err e ∧
          w1.deref 0 = some (File.mk "old.txt".toList "/tmp/x/".toList [3] [4])))) ∧
    (∃ w1 e, File.Remove worldOpened 0 = some (w1, e) ∧
      w1.deref 0 = some (File.mk "old.txt".toList "/tmp/x/".toList [3] [4]) ∧
      ∀ hd ∈ [3] ++ [4], hd ∉ w1.fs.openHandles) :=
  handles_accumulate worldOpened 0 (File.mk "old.txt".toList "/tmp/x/".toList [3] [4])
    (by decide)


/-! ## Lemmas on the file system -/

theorem statKey_ok (fs : FS) (k : Key) (kind : Kind) (h : statKey fs k = Result.ok kind) :
    walk fs k = none ∧ lookupNode fs k = some kind := by
  unfold statKey at h
  cases hw : walk fs k with
  | some e => rw [hw] at h; cases h
  | none =>
    rw [hw] at h
    cases hl : lookupNode fs k with
    | none => rw [hl] at h; cases h
    | some k2 =>
      rw [hl] at h
      simp only [Result.ok.injEq] at h
      subst h
      exact ⟨rfl, rfl⟩

theorem statKey_of (fs : FS) (k : Key) (kind : Kind) (hw : walk fs k = none)
    (hl : lookupNode fs k = some kind) : statKey fs k = Result.ok kind := by
  simp only [statKey, hw, hl]

theorem statKey_enoent (fs : FS) (k : Key) (hw : walk fs k = none)
    (hl : lookupNode fs k = none) : statKey fs k = Result.err OSError.ENOENT := by
  simp only [statKey, hw, hl]

theorem checkDirs_mono (fs fs1 : FS)
    (h : ∀ a, lookupNode fs a = some Kind.dir → lookupNode fs1 a = some Kind.dir)
    (l : List Key) (hl : checkDirs fs l = none) : checkDirs fs1 l = none := by
  induction l with
  | nil => rfl
  | cons a rest ih =>
    rw [checkDirs] at hl ⊢
    cases ha : lookupNode fs a with
    | none => rw [ha] at hl; cases hl
    | some kind =>
      cases kind with
      | file => rw [ha] at hl; cases hl
      | dir =>
        rw [ha] at hl
        rw [h a ha]
        exact ih hl

theorem lookup_filter_keep (l : List (Key × Kind)) (p : Key → Bool) (a : Key)
    (ha : p a = true) : (l.filter (fun n => p n.1)).lookup a = l.lookup a := by
  induction l with
  | nil => rfl
  | cons n rest ih =>
    obtain ⟨k, v⟩ := n
    by_cases hk : a = k
    · subst hk
      simp [List.filter, ha, List.lookup]
    · have hbeq : (a == k) = false := by simpa using hk
      by_cases hp : p k = true
      · simp [List.filter, hp, List.lookup, hbeq, ih]
      · simp [List.filter, hp, List.lookup, hbeq, ih]

theorem lookup_filter_drop (l : List (Key × Kind)) (p : Key → Bool) (a : Key)
    (ha : p a = false) : (l.filter (fun n => p n.1)).lookup a = none := by
  induction l with
  | nil => rfl
  | cons n rest ih =>
    obtain ⟨k, v⟩ := n
    by_cases hp : p k = true
    · have hk : a ≠ k := by
        intro hak; subst hak; rw [ha] at hp; cases hp
      have hbeq : (a == k) = false := by simpa using hk
      simp [List.filter, hp, List.lookup, hbeq, ih]
    · simp [List.filter, hp, ih]

theorem renameKeys_file (fs fs1 : FS) (ko kn : Key)
    (hst : statKey fs ko = Result.ok Kind.file) (h : renameKeys fs ko kn = (fs1, none)) :
    fs1.wd = fs.wd ∧ statKey fs1 kn = Result.ok Kind.file ∧
    (kn ≠ ko → statKey fs1 ko = Result.err OSError.ENOENT) := by
  obtain ⟨hwo, hlo⟩ := statKey_ok fs ko Kind.file hst
  unfold renameKeys at h
  rw [hst] at h
  simp only at h
  cases hw : walk fs kn with
  | some e => rw [hw] at h; simp at h
  | none =>
    rw [hw] at h
    simp only at h
    by_cases h0 : ko = [] ∨ kn = []
    · rw [if_pos h0] at h; simp at h
    · rw [if_neg h0] at h
      by_cases heq : ko = kn
      · rw [if_pos heq] at h
        simp only [Prod.mk.injEq, and_true] at h
        subst h
        subst heq
        exact ⟨rfl, hst, fun hne => absurd rfl hne⟩
      · rw [if_neg heq] at h
        by_cases hro : ko.dropLast ∈ fs.readOnlyDirs ∨ kn.dropLast ∈ fs.readOnlyDirs
        · rw [if_pos hro] at h; simp at h
        · rw [if_neg hro] at h
          have hko : ko ≠ [] := fun hh => h0 (Or.inl hh)
          have hkn : kn ≠ [] := fun hh => h0 (Or.inr hh)
          have hnd : lookupNode fs kn ≠ some Kind.dir := by
            intro hd
            rw [hd] at h
            simp at h
          have hfs1 : fs1 = { fs with nodes :=
              (kn, Kind.file) :: fs.nodes.filter (fun n => n.1 != ko && n.1 != kn) } := by
            cases hl : lookupNode fs kn with
            | none => rw [hl] at h; simp only [Prod.mk.injEq, and_true] at h; exact h.symm
            | some kind =>
              cases kind with
              | dir => exact absurd hl hnd
              | file => rw [hl] at h; simp only [Prod.mk.injEq, and_true] at h; exact h.symm
          have hlk : ∀ a, a ≠ ko → a ≠ kn → lookupNode fs1 a = lookupNode fs a := by
            intro a ha1 ha2
            rw [hfs1]
            unfold lookupNode
            by_cases ha0 : a = []
            · simp [ha0]
            · have hbeq : (a == kn) = false := by simpa using ha2
              simp only [if_neg ha0, List.lookup, hbeq]
              exact lookup_filter_keep fs.nodes (fun k => k != ko && k != kn) a
                (by simp [ha1, ha2])
          have hdirs : ∀ a, lookupNode fs a = some Kind.dir →
              lookupNode fs1 a = some Kind.dir := by
            intro a ha
            have ha1 : a ≠ ko := by
              intro hh; rw [hh, hlo] at ha; cases ha
            have ha2 : a ≠ kn := by
              intro hh; rw [hh] at ha; exact hnd ha
            rw [hlk a ha1 ha2]; exact ha
          have hnew : lookupNode fs1 kn = some Kind.file := by
            rw [hfs1]
            simp [lookupNode, hkn, List.lookup]
          have hold : lookupNode fs1 ko = none := by
            rw [hfs1]
            have hbeq : (ko == kn) = false := by simpa using heq
            simp only [lookupNode, if_neg hko, List.lookup, hbeq]
            exact lookup_filter_drop fs.nodes (fun k => k != ko && k != kn) ko (by simp)
          refine ⟨by rw [hfs1], ?_, ?_⟩
          · exact statKey_of fs1 kn Kind.file (checkDirs_mono fs fs1 hdirs _ hw) hnew
          · intro _
            exact statKey_enoent fs1 ko (checkDirs_mono fs fs1 hdirs _ hwo) hold

theorem osStat_record (fs : FS) (e : Event) (path : GoString) :
    osStat (fs.record e) path = osStat fs path :=
  osStat_congr fs (fs.record e) rfl rfl path

theorem sysRename_file (fs fs1 : FS) (oldname newname : GoString)
    (hfile : osStat fs oldname = Result.ok Kind.file)
    (h : sysRename fs oldname newname = (fs1, none)) :
    osStat fs1 newname = Result.ok Kind.file ∧
    (resolve fs newname ≠ resolve fs oldname →
      osStat fs1 oldname = Result.err OSError.ENOENT) := by
  unfold sysRename at h
  unfold osStat at hfile
  cases hro : resolve fs oldname with
  | none => rw [hro] at hfile; cases hfile
  | some ko =>
    rw [hro] at hfile h
    simp only at hfile
    cases hrn : resolve fs newname with
    | none => rw [hrn] at h; simp at h
    | some kn =>
      rw [hrn] at h
      simp only at h
      obtain ⟨hwd, h1, h2⟩ := renameKeys_file fs fs1 ko kn hfile h
      have hr1 : ∀ p, resolve fs1 p = resolve fs p := resolve_congr fs fs1 hwd
      constructor
      · simp only [osStat, hr1, hrn]; exact h1
      · intro hne
        simp only [osStat, hr1, hro]
        apply h2
        intro hh
        apply hne
        rw [hh]

theorem osRename_file (fs fs1 : FS) (oldname newname : GoString)
    (hfile : osStat fs oldname = Result.ok Kind.file)
    (h : osRename fs oldname newname = (fs1, none)) :
    osStat fs1 newname = Result.ok Kind.file ∧
    (resolve fs newname ≠ resolve fs oldname →
      osStat fs1 oldname = Result.err OSError.ENOENT) := by
  have hfile1 : osStat (fs.record (Event.rename oldname newname)) oldname =
      Result.ok Kind.file := by rw [osStat_record]; exact hfile
  have hres : ∀ p, resolve (fs.record (Event.rename oldname newname)) p = resolve fs p :=
    resolve_congr fs _ rfl
  have key : sysRename (fs.record (Event.rename oldname newname)) oldname newname =
      (fs1, none) := by
    unfold osRename at h
    simp only at h
    cases hn : osStat (fs.record (Event.rename oldname newname)) newname with
    | err e => rw [hn] at h; exact h
    | ok kind =>
      cases kind with
      | file => rw [hn] at h; exact h
      | dir =>
        rw [hn, hfile1] at h
        simp only at h
        by_cases hc : newname = oldname ∨
            resolve (fs.record (Event.rename oldname newname)) newname ≠
              resolve (fs.record (Event.rename oldname newname)) oldname
        · rw [if_pos hc] at h; simp at h
        · rw [if_neg hc] at h; exact h
  have := sysRename_file _ fs1 oldname newname hfile1 key
  rw [hres, hres] at this
  exact this

theorem Rename_eq (w : World) (f : Nat) (x : File) (newName : GoString)
    (h : w.deref f = some x) :
    File.Rename w f newName =
      some ({ w with fs := (osRename w.fs x.FullPath (Join [x.DirPath, newName])).1 },
        (osRename w.fs x.FullPath (Join [x.DirPath, newName])).2) := by
  simp only [File.Rename, h, Option.bind_eq_bind, Option.some_bind, Option.pure_def]

/-- C4 as stated fails: `Rename("new.txt")` on the File at `/tmp/x/old.txt` returns no
error and moves the entry, but `FullPath()` still reports `/tmp/x/old.txt`, not the
directory joined with the new name. -/
theorem Rename_keeps_FullPath :
    (worldWithFile.deref 0).map File.FullPath = some "/tmp/x/old.txt".toList ∧
    osStat worldWithFile.fs "/tmp/x/old.txt".toList = Result.ok Kind.file ∧
    (File.Rename worldWithFile 0 "new.txt".toList).map (fun r => r.2) = some none ∧
    ((File.Rename worldWithFile 0 "new.txt".toList).bind (fun r => r.1.deref 0)).map
      File.FullPath = some "/tmp/x/old.txt".toList ∧
    Join ["/tmp/x/".toList, "new.txt".toList] = "/tmp/x/new.txt".toList ∧
    "/tmp/x/old.txt".toList ≠ "/tmp/x/new.txt".toList ∧
    (File.Rename worldWithFile 0 "new.txt".toList).map
      (fun r => osStat r.1.fs "/tmp/x/new.txt".toList) = some (Result.ok Kind.file) := by
  decide

/-- C4, amended: when the backing file of `f` exists as a regular file and
`f.Rename(newName)` returns no error, the File is unchanged, so `FullPath()` still reports the
old path; a regular file is then found at `DirPath()` joined with `newName`, and the old path
no longer exists unless both paths name the same entry. -/
theorem Rename_moves_entry (w w1 : World) (f : Nat) (x : File) (newName : GoString)
    (h : w.deref f = some x) (hfile : osStat w.fs x.FullPath = Result.ok Kind.file)
    (hren : File.Rename w f newName = some (w1, none)) :
    w1.files = w.files ∧
    (w1.deref f).map File.FullPath = some x.FullPath ∧
    osStat w1.fs (Join [x.DirPath, newName]) = Result.ok Kind.file ∧
    (resolve w.fs (Join [x.DirPath, newName]) ≠ resolve w.fs x.FullPath →
      osStat w1.fs x.FullPath = Result.err OSError.ENOENT) := by
  rw [Rename_eq w f x newName h] at hren
  simp only [Option.some.injEq, Prod.mk.injEq] at hren
  obtain ⟨hw1, herr⟩ := hren
  subst hw1
  have hpair : osRename w.fs x.FullPath (Join [x.DirPath, newName]) =
      ((osRename w.fs x.FullPath (Join [x.DirPath, newName])).1, none) := by
    rw [← herr]
  obtain ⟨h1, h2⟩ := osRename_file w.fs _ x.FullPath (Join [x.DirPath, newName]) hfile hpair
  refine ⟨rfl, ?_, h1, h2⟩
  show (w.deref f).map File.FullPath = _
  rw [h]; rfl

/-- C4, amended, on `Rename("new.txt")` of the File at `/tmp/x/old.txt`. -/
theorem Rename_moves_entry_witness :
    (File.Rename worldWithFile 0 "new.txt".toList).map (fun r => r.1.files) =
      some worldWithFile.files ∧
    ((File.Rename worldWithFile 0 "new.txt".toList).bind (fun r => r.1.deref 0)).map
      File.FullPath = some "/tmp/x/old.txt".toList ∧
    (File.Rename worldWithFile 0 "new.txt".toList).map
      (fun r => osStat r.1.fs "/tmp/x/new.txt".toList) = some (Result.ok Kind.file) ∧
    (File.Rename worldWithFile 0 "new.txt".toList).map
      (fun r => osStat r.1.fs "/tmp/x/old.txt".toList) = some (Result.err OSError.ENOENT) :=
  match hr : File.Rename worldWithFile 0 "new.txt".toList with
  | none => absurd hr (by decide)
  | some (w1, e) =>
    have he : e = none := by
      have h2 : (File.Rename worldWithFile 0 "new.txt".toList).map (fun r => r.2) = some none := by
        decide
      rw [hr] at h2
      simpa using h2
    have key := Rename_moves_entry worldWithFile w1 0
      (File.mk "old.txt".toList "/tmp/x/".toList [] []) "new.txt".toList (by decide) (by decide)
      (by rw [hr, he])
    ⟨by simpa using key.1, by simpa using key.2.1, by simpa using key.2.2.1,
     by simpa using key.2.2.2 (by decide)⟩


/-! ## `Path.Create` -/

theorem osMkdir_ok (fs : FS) (path : GoString) (h : (osMkdir fs path).2 = none) :
    osStat (osMkdir fs path).1 path = Result.ok Kind.dir := by
  unfold osMkdir at h ⊢
  simp only at h ⊢
  have hres : resolve (fs.record (Event.mkdir path)) path = resolve fs path :=
    resolve_congr fs _ rfl path
  rw [hres] at h ⊢
  cases hr : resolve fs path with
  | none => rw [hr] at h; simp at h
  | some k =>
    rw [hr] at h
    simp only at h ⊢
    cases hw : walk (fs.record (Event.mkdir path)) k with
    | some e => rw [hw] at h; simp at h
    | none =>
      rw [hw] at h
      simp only at h ⊢
      cases hl : lookupNode (fs.record (Event.mkdir path)) k with
      | some kind => rw [hl] at h; simp at h
      | none =>
        rw [hl] at h
        simp only at h ⊢
        by_cases hro : k.dropLast ∈ (fs.record (Event.mkdir path)).readOnlyDirs
        · rw [if_pos hro] at h; simp at h
        · rw [if_neg hro]
          simp only
          have hk : k ≠ [] := by
            intro hk0
            rw [hk0] at hl
            simp [lookupNode] at hl
          have hdirs : ∀ a, lookupNode (fs.record (Event.mkdir path)) a = some Kind.dir →
              lookupNode { fs.record (Event.mkdir path) with
                nodes := (k, Kind.dir) :: (fs.record (Event.mkdir path)).nodes } a =
                some Kind.dir := by
            intro a ha
            unfold lookupNode at ha ⊢
            by_cases ha0 : a = []
            · simp [ha0]
            · rw [if_neg ha0] at ha ⊢
              by_cases hak : a = k
              · simp [List.lookup, hak]
              · have hbeq : (a == k) = false := by simpa using hak
                simp only [List.lookup, hbeq]
                exact ha
          unfold osStat
          have hres2 : resolve { fs.record (Event.mkdir path) with
              nodes := (k, Kind.dir) :: (fs.record (Event.mkdir path)).nodes } path =
              some k := by
            rw [← hr]; exact resolve_congr fs _ rfl path
          rw [hres2]
          simp only
          apply statKey_of
          · exact checkDirs_mono _ _ hdirs _ hw
          · simp [lookupNode, hk, List.lookup]

theorem mkdirAllAux_ok (fuel : Nat) (fs : FS) (path : GoString)
    (h : (mkdirAllAux fuel fs path).2 = none) :
    osStat (mkdirAllAux fuel fs path).1 path = Result.ok Kind.dir := by
  cases fuel with
  | zero => simp [mkdirAllAux] at h
  | succ fuel =>
    rw [mkdirAllAux] at h ⊢
    cases hst : osStat fs path with
    | ok kind =>
      cases kind with
      | dir => simp only [hst]
      | file => rw [hst] at h; simp at h
    | err e =>
      rw [hst] at h
      simp only at h ⊢
      generalize (if scanBack (fun c => !IsPathSeparator c) path
          (scanBack IsPathSeparator path path.length) > 1 then
          mkdirAllAux fuel fs (path.take (scanBack (fun c => !IsPathSeparator c) path
            (scanBack IsPathSeparator path path.length) - 1))
        else (fs, none)) = parent at h ⊢
      cases hp : parent.2 with
      | some e2 => rw [hp] at h; simp at h
      | none =>
        rw [hp] at h
        simp only at h ⊢
        cases hm : (osMkdir parent.1 path).2 with
        | none =>
          simp only
          exact osMkdir_ok parent.1 path hm
        | some e3 =>
          rw [hm] at h
          simp only at h ⊢
          cases hs2 : osStat (osMkdir parent.1 path).1 path with
          | err e4 => rw [hs2] at h; simp at h
          | ok kind =>
            cases kind with
            | file => rw [hs2] at h; simp at h
            | dir => simp only [hs2]

/-- C6 as stated fails: `Create()` on the path of the regular file `/etc/passwd` returns no
error twice and leaves a regular file, not a directory, at the path; `Create()` on
`/etc/sub` in the read-only directory `/etc` fails, the first and the second time. -/
theorem Create_not_always_directory :
    (Path.Create (Path.mk "/etc/passwd".toList) exampleFS).2 = none ∧
    (Path.Create (Path.mk "/etc/passwd".toList)
      (Path.Create (Path.mk "/etc/passwd".toList) exampleFS).1).2 = none ∧
    osStat (Path.Create (Path.mk "/etc/passwd".toList)
      (Path.Create (Path.mk "/etc/passwd".toList) exampleFS).1).1 "/etc/passwd".toList =
        Result.ok Kind.file ∧
    (Path.Create (Path.mk "/etc/sub".toList) exampleFS).2 = some OSError.EACCES ∧
    (Path.Create (Path.mk "/etc/sub".toList)
      (Path.Create (Path.mk "/etc/sub".toList) exampleFS).1).2 = some OSError.EACCES := by
  decide

/-- C6, amended: when the path already exists, as a file or as a directory, `Create()`
returns no error and changes nothing; a `Create()` that returns no error leaves a state in
which a second `Create()` returns no error and changes nothing; and when `os.Stat` reported
the path missing and `Create()` returns no error, a directory is present at the path
afterwards. -/
theorem Create_idempotent (p : Path) (fs : FS) :
    (∀ kind, osStat fs p.FullPath = Result.ok kind → p.Create fs = (fs, none)) ∧
    ((p.Create fs).2 = none → p.Create (p.Create fs).1 = ((p.Create fs).1, none)) ∧
    (osStat fs p.FullPath = Result.err OSError.ENOENT → (p.Create fs).2 = none →
      osStat (p.Create fs).1 p.FullPath = Result.ok Kind.dir) := by
  have hmissing : osStat fs p.FullPath = Result.err OSError.ENOENT →
      p.Create fs = osMkdirAll fs p.FullPath := by
    intro hst
    simp [Path.Create, hst, IsNotExist]
  refine ⟨?_, ?_, ?_⟩
  · intro kind hst
    simp only [Path.Create, hst]
  · intro hok
    cases hst : osStat fs p.FullPath with
    | ok kind =>
      have hc : p.Create fs = (fs, none) := by simp only [Path.Create, hst]
      rw [hc]; exact hc
    | err e =>
      by_cases he : e = OSError.ENOENT
      · subst he
        have hc := hmissing hst
        rw [hc] at hok ⊢
        have hdir := mkdirAllAux_ok _ fs p.FullPath hok
        simp only [Path.Create]
        unfold osMkdirAll
        rw [hdir]
      · have hc : p.Create fs = (fs, none) := by
          have : IsNotExist e = false := by simpa [IsNotExist] using he
          simp [Path.Create, hst, this]
        rw [hc]; exact hc
  · intro hst hok
    rw [hmissing hst] at hok ⊢
    exact mkdirAllAux_ok _ fs p.FullPath hok

/-- C6, amended, on the missing path `/tmp/a/b`: `Create()` makes the directory and its
parent, and a second `Create()` changes nothing. -/
theorem Create_idempotent_witness :
    osStat exampleFS "/tmp/a/b".toList = Result.err OSError.ENOENT ∧
    (Path.Create (Path.mk "/tmp/a/b".toList) exampleFS).2 = none ∧
    osStat (Path.Create (Path.mk "/tmp/a/b".toList) exampleFS).1 "/tmp/a/b".toList =
      Result.ok Kind.dir ∧
    Path.Create (Path.mk "/tmp/a/b".toList)
      (Path.Create (Path.mk "/tmp/a/b".toList) exampleFS).1 =
      ((Path.Create (Path.mk "/tmp/a/b".toList) exampleFS).1, none) :=
  ⟨by decide, by decide,
   (Create_idempotent (Path.mk "/tmp/a/b".toList) exampleFS).2.2 (by decide) (by decide),
   (Create_idempotent (Path.mk "/tmp/a/b".toList) exampleFS).2.1 (by decide)⟩


end GoFilesys
